import Mathlib

/-!
Verification development for the honeybee content aggregator.

The Go code is shallowly embedded: Go strings and byte slices are modelled as
`List Nat` (one natural number per byte), Go maps as association lists, Go
interface values that may be nil as `Option`, and Go code that can panic as
functions returning `Option` (`none` models the panic).  Pure helper functions
(`IdEncode`, `IdEncodeStrings`, SHA-1, CRC-32, base64, hex, `path.Clean`) are
translated operation by operation from the sources so that they evaluate on
concrete inputs.
-/

set_option maxRecDepth 40000

namespace Honeybee

/-- Go strings and `[]byte` values are byte sequences; we model both as lists
of natural numbers (each entry is one byte, `< 256` in any real execution). -/
abbrev GoStr := List Nat

/-- Byte list of an ASCII Lean string literal, used to write concrete inputs. -/
def strBytes (s : String) : GoStr := s.data.map (fun c => c.toNat)

/-! ### SHA-1 (crypto/sha1), as used by `IdEncodeStrings` and `cacheKey` -/

/-- Truncation to 32 bits, the word size of SHA-1. -/
def w32 (n : Nat) : Nat := n % 4294967296

/-- Rotate a 32-bit word left by `s` bits.  For `n < 2 ^ 32` the two summands
occupy disjoint bit ranges, so addition agrees with bitwise or. -/
def rotl32 (s n : Nat) : Nat := w32 (n * 2 ^ s) + n / 2 ^ (32 - s)

/-- The SHA-1 round constants. -/
def sha1K (i : Nat) : Nat :=
  if i < 20 then 1518500249
  else if i < 40 then 1859775393
  else if i < 60 then 2400959708
  else 3395469782

/-- The SHA-1 round functions (Ch, Parity, Maj, Parity); complement of a
32-bit word is xor with `2 ^ 32 - 1`. -/
def sha1F (i b c d : Nat) : Nat :=
  if i < 20 then (b &&& c) ||| ((b ^^^ 4294967295) &&& d)
  else if i < 40 then b ^^^ c ^^^ d
  else if i < 60 then (b &&& c) ||| (b &&& d) ||| (c &&& d)
  else b ^^^ c ^^^ d

/-- Big-endian byte rendering of `n` on `k` bytes. -/
def beBytes : Nat → Nat → List Nat
  | 0, _ => []
  | k+1, n => (n / 2 ^ (8 * k)) % 256 :: beBytes k n

/-- Pack bytes into big-endian 32-bit words (a 64-byte chunk gives 16 words). -/
def bytesToWords : List Nat → List Nat
  | b0 :: b1 :: b2 :: b3 :: rest =>
    w32 (((b0 * 256 + b1) * 256 + b2) * 256 + b3) :: bytesToWords rest
  | _ => []

/-- Extend the 16 schedule words of a chunk to 80, one appended word per
fuel step: `w[i] = rotl1 (w[i-3] xor w[i-8] xor w[i-14] xor w[i-16])`. -/
def sha1Extend : Nat → List Nat → List Nat
  | 0, ws => ws
  | n+1, ws =>
    let i := ws.length
    let x := rotl32 1 ((ws.getD (i-3) 0) ^^^ (ws.getD (i-8) 0) ^^^
                      (ws.getD (i-14) 0) ^^^ (ws.getD (i-16) 0))
    sha1Extend n (ws ++ [x])

/-- One SHA-1 round on the five-word working state. -/
def sha1Round (st : Nat × Nat × Nat × Nat × Nat) (iw : Nat × Nat) :
    Nat × Nat × Nat × Nat × Nat :=
  match st, iw with
  | (a, b, c, d, e), (i, wi) =>
    (w32 (rotl32 5 a + sha1F i b c d + e + sha1K i + wi), a, rotl32 30 b, c, d)

/-- Compress one 64-byte chunk into the running digest state. -/
def sha1Chunk (h : Nat × Nat × Nat × Nat × Nat) (chunk : List Nat) :
    Nat × Nat × Nat × Nat × Nat :=
  let ws := sha1Extend 64 (bytesToWords chunk)
  match h, ((List.range 80).zip ws).foldl sha1Round h with
  | (h0, h1, h2, h3, h4), (a, b, c, d, e) =>
    (w32 (h0 + a), w32 (h1 + b), w32 (h2 + c), w32 (h3 + d), w32 (h4 + e))

/-- Split a byte list into 64-byte chunks (fuel-driven structural recursion;
fuel at least the length of the list suffices). -/
def chunks64 : Nat → List Nat → List (List Nat)
  | 0, _ => []
  | _+1, [] => []
  | n+1, l => l.take 64 :: chunks64 n (l.drop 64)

/-- SHA-1 message padding: a `0x80` byte, zeros up to 56 mod 64, and the
bit length on 8 big-endian bytes. -/
def sha1Pad (m : GoStr) : GoStr :=
  m ++ 128 :: List.replicate ((120 - (m.length + 1) % 64) % 64) 0 ++ beBytes 8 (m.length * 8)

/-- The five-word SHA-1 digest state after all chunks are compressed. -/
def sha1Digest (m : GoStr) : Nat × Nat × Nat × Nat × Nat :=
  (chunks64 (sha1Pad m).length (sha1Pad m)).foldl sha1Chunk
    (1732584193, 4023233417, 2562383102, 271733878, 3285377520)

/-- The SHA-1 digest of a byte sequence: 20 bytes. -/
def sha1 (m : GoStr) : List Nat :=
  beBytes 4 (sha1Digest m).1 ++ beBytes 4 (sha1Digest m).2.1 ++
    beBytes 4 (sha1Digest m).2.2.1 ++ beBytes 4 (sha1Digest m).2.2.2.1 ++
    beBytes 4 (sha1Digest m).2.2.2.2

/-! ### base64.URLEncoding and util.go `IdEncode` / `IdEncodeStrings` -/

/-- The URL-safe base64 alphabet `A-Z a-z 0-9 - _` as byte values. -/
def b64Alphabet : List Nat :=
  (List.range 26).map (fun i => i + 65) ++ (List.range 26).map (fun i => i + 97) ++
    (List.range 10).map (fun i => i + 48) ++ [45, 95]

/-- Alphabet lookup for one 6-bit group (Go masks indices with `0x3F`). -/
def b64Char (i : Nat) : Nat := b64Alphabet.getD (i % 64) 65

/-- `base64.URLEncoding.Encode`: three input bytes become four alphabet bytes;
a trailing group of two or one byte is padded with `=` (byte 61). -/
def b64Encode : GoStr → GoStr
  | b0 :: b1 :: b2 :: rest =>
    b64Char (b0 / 4) :: b64Char (b0 % 4 * 16 + b1 / 16) ::
      b64Char (b1 % 16 * 4 + b2 / 64) :: b64Char (b2 % 64) :: b64Encode rest
  | [b0, b1] => [b64Char (b0 / 4), b64Char (b0 % 4 * 16 + b1 / 16), b64Char (b1 % 16 * 4), 61]
  | [b0] => [b64Char (b0 / 4), b64Char (b0 % 4 * 16), 61, 61]
  | [] => []

/-- `base64.URLEncoding.EncodedLen` (padded encoding). -/
def encodedLen (n : Nat) : Nat := (n + 2) / 3 * 4

/-- `strings.Index` for a single byte: index of its first occurrence. -/
def strIndex (x : Nat) : GoStr → Option Nat
  | [] => none
  | y :: ys => if y = x then some 0 else (strIndex x ys).map (fun i => i + 1)

/-- util.go `IdEncode`: base64-encode and cut at the first `=` padding byte
(when no `=` occurs, Go cuts at `encoded_len - 1`, dropping the last byte). -/
def idEncode (b : GoStr) : GoStr :=
  (b64Encode b).take
    (match strIndex 61 (b64Encode b) with
     | some i => i
     | none => encodedLen b.length - 1)

/-- The byte string hashed by `IdEncodeStrings`: the parts joined with `|`. -/
def idJoin : List GoStr → GoStr
  | [] => []
  | [p] => p
  | p :: rest => p ++ 124 :: idJoin rest

/-- util.go `IdEncodeStrings`: SHA-1 the `|`-joined parts, then `IdEncode`. -/
def idEncodeStrings (parts : List GoStr) : GoStr := idEncode (sha1 (idJoin parts))

/-- Lowercase hex digit of a 4-bit value. -/
def hexDigit (n : Nat) : Nat := if n < 10 then 48 + n else 87 + n

/-- `hex.EncodeToString`: two lowercase hex digits per byte. -/
def hexEncode (b : GoStr) : GoStr :=
  b.foldr (fun x acc => hexDigit (x / 16 % 16) :: hexDigit (x % 16) :: acc) []

/-! ### Association lists, modelling Go maps keyed by strings -/

/-- Lookup in a Go map modelled as an association list. -/
def alistLookup {β : Type} (k : GoStr) : List (GoStr × β) → Option β
  | [] => none
  | e :: rest => if e.1 = k then some e.2 else alistLookup k rest

/-- Map update `m[k] = v`: replace the binding of `k`, or append it. -/
def alistInsert {β : Type} (k : GoStr) (v : β) : List (GoStr × β) → List (GoStr × β)
  | [] => [(k, v)]
  | e :: rest => if e.1 = k then (k, v) :: rest else e :: alistInsert k v rest

/-- Map deletion `delete(m, k)`. -/
def alistRemove {β : Type} (k : GoStr) (m : List (GoStr × β)) : List (GoStr × β) :=
  m.filter (fun e => ¬ e.1 = k)

/-! ### Block and BlockStore (blocks.go) -/

/-- One content block.  `origin` stands for the `Origin Source` interface
field, modelled by the source's stable `Id()` string; `none` models a nil
interface.  The per-block mutex is a lock, not data, and is omitted. -/
structure Block where
  origin : Option GoStr
  title : GoStr
  imageLink : GoStr
  imageWidth : Int
  imageHeight : Int
  link : GoStr
  content : GoStr
  timeStamp : Int
deriving DecidableEq

/-- The `o_id` string used by `Block.Id()`: empty for a nil origin, otherwise
the origin's `Id()`. -/
def originId (b : Block) : GoStr :=
  match b.origin with
  | none => []
  | some s => s

/-- The byte string fed to SHA-1 by `Block.Id()`. -/
def blockHashInput (b : Block) : GoStr := idJoin [originId b, b.title, b.link, b.content]

/-- `Block.Id()`: the derived content id. -/
def blockId (b : Block) : GoStr := idEncodeStrings [originId b, b.title, b.link, b.content]

/-- `ByTimeStamp.Less`: block `a` sorts before `b` when its timestamp is
strictly later (`TimeStamp.After`). -/
def blockLess (a b : Block) : Bool := decide (b.timeStamp < a.timeStamp)

/-- Insert one block into an already sorted prefix, placing it after every
element it is not strictly `blockLess` than (ties keep their original
relative order, as Go's insertion sort does on the slice sizes that occur). -/
def sortInsert (x : Block) : List Block → List Block
  | [] => [x]
  | y :: ys => if blockLess x y then x :: y :: ys else y :: sortInsert x ys

/-- The sort step `sort.Sort(ByTimeStamp(bs.blocks))`, modelled as a stable
insertion sort.  Go's `sort.Sort` guarantees only some `Less`-sorted
permutation (it is documented as not stable); accordingly, every property
proved below about the resulting sequence is either invariant under which
sorted permutation is produced, or is proved for every sorted permutation
(`receiveBlocks_preserves_other_sources_amended`), while the instability on
ties is exhibited against the exact small-slice code path (`sortSortSmall`). -/
def sortBlocks (l : List Block) : List Block := l.foldl (fun acc x => sortInsert x acc) []

/-- A placeholder block for out-of-range index reads; Go's sort never reads
out of range, so it never influences a result. -/
def defBlock : Block :=
  { origin := none, title := [], imageLink := [], imageWidth := 0, imageHeight := 0,
    link := [], content := [], timeStamp := 0 }

/-- `data.Less(i, j)` on a block slice. -/
def blockLessAt (l : List Block) (i j : Nat) : Bool :=
  blockLess (l.getD i defBlock) (l.getD j defBlock)

/-- `data.Swap(i, j)` on a block slice. -/
def swapBlocks (l : List Block) (i j : Nat) : List Block :=
  (l.set i (l.getD j defBlock)).set j (l.getD i defBlock)

/-- The shellsort pass with gap 6 that Go's `sort.quickSort` runs on slices
of at most 12 elements: `for i := a+6; i < b; i++`, swapping `i` and `i-6`
when `Less(i, i-6)` (fuel-driven; fuel `b` suffices, the start index is
`a+6`). -/
def shellPass6Loop (b : Nat) : Nat → Nat → List Block → List Block
  | _, 0, l => l
  | i, fuel+1, l =>
    if i < b then
      shellPass6Loop b (i+1) fuel
        (if blockLessAt l i (i-6) then swapBlocks l i (i-6) else l)
    else l

/-- The inner loop of Go's `sort.insertionSort`:
`for j := i; j > a && Less(j, j-1); j--`, swapping `j` and `j-1`. -/
def insSortInner (a : Nat) : Nat → List Block → List Block
  | 0, l => l
  | j+1, l =>
    if a < j + 1 ∧ blockLessAt l (j+1) j then insSortInner a j (swapBlocks l (j+1) j)
    else l

/-- The outer loop of Go's `sort.insertionSort` over `i := a+1 .. b-1`. -/
def insSortOuter (a b : Nat) : Nat → Nat → List Block → List Block
  | _, 0, l => l
  | i, fuel+1, l =>
    if i < b then insSortOuter a b (i+1) fuel (insSortInner a i l)
    else l

/-- Go's `sort.insertionSort(data, a, b)`. -/
def goInsertionSort (a b : Nat) (l : List Block) : List Block :=
  insSortOuter a b (a + 1) b l

/-- The code path Go's `sort.Sort` executes on slices of at most 12 elements
(sort package of the repo's GOPATH-era toolchains): `quickSort` skips its
partitioning loop since `b-a <= 12` and, for `b-a > 1`, runs one gap-6
shellsort pass followed by `insertionSort`.  The gap-6 pass is not stable: a
later, strictly larger element can jump six positions ahead of an element
whose timestamp equals that of the element it displaces. -/
def sortSortSmall (l : List Block) : List Block :=
  if 1 < l.length then goInsertionSort 0 l.length (shellPass6Loop l.length 6 l.length l)
  else l

/-- The block store: the ordered block sequence plus the id index map. -/
structure BlockStore where
  blocks : List Block
  index : List (GoStr × Block)
deriving DecidableEq

/-- `NewBlockStore()`. -/
def emptyBlockStore : BlockStore := { blocks := [], index := [] }

/-- The source-id set collected from `newBlocks` (nil origins are skipped). -/
def collectSourceIds (newBlocks : List Block) : List GoStr :=
  newBlocks.filterMap (fun b => b.origin)

/-- The purge loop of `ReceiveBlocks`: walk the stored blocks, dropping (and
un-indexing) every block whose source id is in `srcIds`.  Calling
`block.Origin.Id()` on a stored block with a nil origin panics in Go; the
panic is modelled by `none`. -/
def purgeBlocks (srcIds : List GoStr) (idx : List (GoStr × Block)) :
    List Block → Option (List (GoStr × Block) × List Block)
  | [] => some (idx, [])
  | b :: rest =>
    match b.origin with
    | none => none
    | some oid =>
      if oid ∈ srcIds then purgeBlocks srcIds (alistRemove (blockId b) idx) rest
      else
        match purgeBlocks srcIds idx rest with
        | none => none
        | some (idx2, keep) => some (idx2, b :: keep)

/-- `BlockStore.ReceiveBlocks`: collect the incoming source ids, purge the
stored blocks of those sources, append all of `newBlocks` (indexing each by
id), and re-sort by timestamp descending.  `none` models the nil-origin
panic of the purge loop. -/
def receiveBlocks (bs : BlockStore) (newBlocks : List Block) : Option BlockStore :=
  match purgeBlocks (collectSourceIds newBlocks) bs.index bs.blocks with
  | none => none
  | some (idx, keep) =>
    some { blocks := sortBlocks (keep ++ newBlocks),
           index := newBlocks.foldl (fun m nb => alistInsert (blockId nb) nb m) idx }

/-- `ReceiveBlocks` with the sort step as Go's `sort.Sort` executes it on
combined slices of at most 12 elements. -/
def receiveBlocksGoSortSmall (bs : BlockStore) (newBlocks : List Block) : Option BlockStore :=
  match purgeBlocks (collectSourceIds newBlocks) bs.index bs.blocks with
  | none => none
  | some (idx, keep) =>
    some { blocks := sortSortSmall (keep ++ newBlocks),
           index := newBlocks.foldl (fun m nb => alistInsert (blockId nb) nb m) idx }

/-- Run a sequence of `ReceiveBlocks` calls from a given store. -/
def runCallsFrom (bs : BlockStore) : List (List Block) → Option BlockStore
  | [] => some bs
  | c :: cs =>
    match receiveBlocks bs c with
    | none => none
    | some bs2 => runCallsFrom bs2 cs

/-- Run a sequence of `ReceiveBlocks` calls starting from the empty store. -/
def runCalls (calls : List (List Block)) : Option BlockStore :=
  runCallsFrom emptyBlockStore calls

/-- All blocks passed across a sequence of calls. -/
def allCallBlocks (calls : List (List Block)) : List Block := calls.flatten

/-- The store sequence is sorted by timestamp descending (no later element is
strictly `blockLess` an earlier one). -/
def blocksSorted (l : List Block) : Prop := l.Pairwise (fun a b => blockLess b a = false)

instance (l : List Block) : Decidable (blocksSorted l) :=
  inferInstanceAs (Decidable (l.Pairwise (fun a b => blockLess b a = false)))

/-- Two blocks differ in exactly one of the four id-determining fields
(source id, title, link, content), the other three being equal. -/
def diffExactlyOneIdField (b1 b2 : Block) : Prop :=
  (¬ originId b1 = originId b2 ∧ b1.title = b2.title ∧ b1.link = b2.link ∧
      b1.content = b2.content) ∨
  (originId b1 = originId b2 ∧ ¬ b1.title = b2.title ∧ b1.link = b2.link ∧
      b1.content = b2.content) ∨
  (originId b1 = originId b2 ∧ b1.title = b2.title ∧ ¬ b1.link = b2.link ∧
      b1.content = b2.content) ∨
  (originId b1 = originId b2 ∧ b1.title = b2.title ∧ b1.link = b2.link ∧
      ¬ b1.content = b2.content)

instance (b1 b2 : Block) : Decidable (diffExactlyOneIdField b1 b2) := by
  unfold diffExactlyOneIdField
  infer_instance

/-! ### ForgettingCache (cache.go) -/

/-- One bit step of the reflected CRC-32 computation (polynomial
`0xEDB88320`). -/
def crc32Step (c : Nat) : Nat := if c % 2 = 1 then (c / 2) ^^^ 3988292384 else c / 2

/-- Fold one byte into the running CRC. -/
def crc32Byte (c b : Nat) : Nat := crc32Step^[8] (c ^^^ b % 256)

/-- `crc32.ChecksumIEEE`. -/
def crc32 (s : GoStr) : Nat := (s.foldl crc32Byte 4294967295) ^^^ 4294967295

/-- The `ForgettingCache` state: the key set of the underlying diskv store
(eraseable by key), the configured percentage, and the rotating counter.
The byte-blob values play no role in `ForgetSome` and are omitted. -/
structure FCache where
  keys : List GoStr
  forgetPercent : Int
  forgetCounter : Int
deriving DecidableEq

/-- The `modValue` computed at the top of `ForgetSome`. -/
def forgetModValue (p : Int) : Int := if 0 < p ∧ p ≤ 100 then 100 / p else 1

/-- `ForgettingCache.ForgetSome`: erase every key whose CRC-32 modulo
`modValue` equals the rotating counter, then advance the counter. -/
def forgetSome (c : FCache) : FCache :=
  let modValue := forgetModValue c.forgetPercent
  { keys := c.keys.filter (fun k => ((crc32 k : Int) % modValue) != c.forgetCounter),
    forgetPercent := c.forgetPercent,
    forgetCounter := if c.forgetCounter + 1 = modValue then 0 else c.forgetCounter + 1 }

/-- `NewForgettingCache`: the counter starts at zero. -/
def newForgettingCache (d : List GoStr) (forgetPercent : Int) : FCache :=
  { keys := d, forgetPercent := forgetPercent, forgetCounter := 0 }

/-- Iterated `ForgetSome` calls. -/
def iterForget (c : FCache) : Nat → FCache
  | 0 => c
  | n+1 => iterForget (forgetSome c) n

/-- Key `k` is erased during call number `i` (counting from 0) of a run of
consecutive `ForgetSome` calls starting from `c`. -/
def erasedAt (c : FCache) (i : Nat) (k : GoStr) : Prop :=
  k ∈ (iterForget c i).keys ∧ k ∉ (iterForget c (i + 1)).keys

/-! ### ExpandHome (util.go) and path.Join / path.Clean -/

/-- The backtracking loop of `path.Clean` for a `..` element: repeatedly drop
the last byte of the output until the dropped byte was a slash or the output
length reaches `dotdot`.  The first argument is the byte just dropped, the
list is the remaining output, reversed. -/
def cleanBacktrackAux (dotdot : Nat) (d : Nat) (rev : GoStr) : GoStr :=
  match rev with
  | [] => []
  | e :: rest =>
    if dotdot < (e :: rest).length ∧ ¬ d = 47 then cleanBacktrackAux dotdot e rest
    else e :: rest

/-- Drop the last path element of the output buffer (`out.w--` followed by
the backtracking loop), entered by `path.Clean` only when
`dotdot < out.length`. -/
def cleanBacktrack (dotdot : Nat) (out : GoStr) : GoStr :=
  match out.reverse with
  | [] => []
  | d :: rest => (cleanBacktrackAux dotdot d rest).reverse

/-- The main loop of `path.Clean` over the remaining input bytes; `out` is
the output written so far and `dotdot` the limit for `..` backtracking.
Fuel-driven: every iteration consumes at least one input byte. -/
def cleanLoop (rooted : Bool) : Nat → GoStr → GoStr → Nat → GoStr
  | 0, _, out, _ => out
  | _+1, [], out, _ => out
  | fuel+1, c :: rest, out, dotdot =>
    if c = 47 then
      cleanLoop rooted fuel rest out dotdot
    else if c = 46 ∧ (rest = [] ∨ rest.headD 0 = 47) then
      cleanLoop rooted fuel rest out dotdot
    else if c = 46 ∧ rest.headD 0 = 46 ∧ (rest.length = 1 ∨ rest.tail.headD 0 = 47) then
      if dotdot < out.length then
        cleanLoop rooted fuel rest.tail (cleanBacktrack dotdot out) dotdot
      else if rooted = false then
        let out2 := (if out.length > 0 then out ++ [47] else out) ++ [46, 46]
        cleanLoop rooted fuel rest.tail out2 out2.length
      else
        cleanLoop rooted fuel rest.tail out dotdot
    else
      let sep : GoStr :=
        if (rooted = true ∧ ¬ out.length = 1) ∨ (rooted = false ∧ ¬ out.length = 0)
        then [47] else []
      cleanLoop rooted fuel ((c :: rest).dropWhile (fun x => ¬ x = 47))
        (out ++ sep ++ (c :: rest).takeWhile (fun x => ¬ x = 47)) dotdot

/-- `path.Clean` on byte strings. -/
def pathClean (p : GoStr) : GoStr :=
  match p with
  | [] => [46]
  | c :: rest =>
    let rooted := c = 47
    let res :=
      if rooted then cleanLoop true (rest.length + 1) rest [47] 1
      else cleanLoop false (p.length + 1) (c :: rest) [] 0
    if res.length = 0 then [46] else res

/-- One step of `path.Join`'s buffer build. -/
def joinStep (buf e : GoStr) : GoStr :=
  if ¬ buf = [] ∨ ¬ e = [] then (if ¬ buf = [] then buf ++ [47] else buf) ++ e else buf

/-- `path.Join` of the two elements passed by `ExpandHome`. -/
def goPathJoin (a b : GoStr) : GoStr :=
  if a.length + b.length = 0 then [] else pathClean ([a, b].foldl joinStep [])

/-- util.go `ExpandHome`.  Go evaluates the slice `p[:2]` before any length
check, which panics (slice bounds out of range) when `len(p) < 2`; the panic
is modelled by `none`.  `usr` is the result of `user.Current()`: the home
directory on success, `none` on error (in which case `p` is returned
unchanged). -/
def expandHome (usr : Option GoStr) (p : GoStr) : Option GoStr :=
  if p.length < 2 then none
  else if p.take 2 = [126, 47] then
    some (match usr with
      | some homeDir => goPathJoin homeDir (p.drop 2)
      | none => p)
  else some p

/-! ### The refresh scheduler loop (server.go, NewServer's update goroutine) -/

/-- State of the update goroutine between loop iterations: the `doUpdating`
flag, the current `updateTimeout` (seconds), and the block store size it
observes. -/
structure SchedState where
  doUpdating : Bool
  updateTimeout : Int
  storeSize : Nat
deriving DecidableEq

/-- How one blocking wait of the loop ends: a value arrives on
`doUpdatingChan`, or `time.After(updateTimeout)` fires. -/
inductive SchedEvent where
  | signal (b : Bool)
  | timeout
deriving DecidableEq

/-- The state on entry to the first loop iteration:
`doUpdating := false; updateTimeout := 10`, empty store. -/
def schedInit : SchedState := { doUpdating := false, updateTimeout := 10, storeSize := 0 }

/-- The body of one update-loop iteration: when `doUpdating` is set, run a
cycle (`pullSize` is the store size `PullSources` leaves behind, an input of
the environment) and, when the timeout is positive and the store non-empty,
switch the timeout to the configured interval. -/
def schedBody (interval : Int) (s : SchedState) (pullSize : Nat) : SchedState :=
  if s.doUpdating then
    { doUpdating := s.doUpdating,
      updateTimeout :=
        if 0 < s.updateTimeout ∧ 0 < pullSize then interval else s.updateTimeout,
      storeSize := pullSize }
  else s

/-- One iteration of the update loop: the body, then the blocking wait.
When `updateTimeout > 0` the wait is a select and either event can end it;
otherwise only a channel receive can, so a `timeout` event is impossible
(`none`).  The returned flag records whether this iteration ran a cycle. -/
def schedIter (interval : Int) (s : SchedState) (pullSize : Nat) (e : SchedEvent) :
    Option (SchedState × Bool) :=
  if 0 < (schedBody interval s pullSize).updateTimeout then
    match e with
    | .signal b => some ({ schedBody interval s pullSize with doUpdating := b }, s.doUpdating)
    | .timeout => some (schedBody interval s pullSize, s.doUpdating)
  else
    match e with
    | .signal b => some ({ schedBody interval s pullSize with doUpdating := b }, s.doUpdating)
    | .timeout => none

/-- Run the loop over a trace of per-iteration inputs, returning the final
state and the list of cycle flags (one per iteration). -/
def runSched (interval : Int) (s : SchedState) :
    List (Nat × SchedEvent) → Option (SchedState × List Bool)
  | [] => some (s, [])
  | (p, e) :: rest =>
    match schedIter interval s p e with
    | none => none
    | some (s2, ran) =>
      match runSched interval s2 rest with
      | none => none
      | some (sf, rans) => some (sf, ran :: rans)

/-- A trace with interval 0: a start signal, then a timer expiry after the
started cycle left the store empty, then a stop signal. -/
def schedCxTrace : List (Nat × SchedEvent) :=
  [(0, SchedEvent.signal true), (0, SchedEvent.timeout), (0, SchedEvent.signal false)]

/-! ### The image proxy (image.go) -/

/-- A successful `http.Get` response as `downloadAndCache` consumes it:
protocol and status strings, the header subset it writes (everything but
Content-Length, pre-rendered), and the numeric status code. -/
structure UpstreamResp where
  proto : GoStr
  status : GoStr
  headersSubset : GoStr
  statusCode : Int
deriving DecidableEq

/-- An effect applied to the cache. -/
inductive CacheOp where
  | set (k v : GoStr)
  | del (k : GoStr)
deriving DecidableEq

/-- What one `downloadAndCache` run produces: the framed response bytes and
error of the broadcast `download` value, plus the cache effects in order. -/
structure DownloadOutcome where
  respData : GoStr
  err : Option GoStr
  cacheOps : List CacheOp
deriving DecidableEq

/-- Decimal digits of a natural number as ASCII bytes. -/
def natDecimal (n : Nat) : GoStr := (Nat.toDigits 10 n).map (fun c => c.toNat)

/-- The `"Content-Length: %d\n\n"` line written before the body. -/
def contentLengthLine (n : Nat) : GoStr :=
  strBytes "Content-Length: " ++ natDecimal n ++ [10, 10]

/-- `ImgProxy.cacheKey`: hex of SHA-1 over the url, a `|`, and the transform
options string. -/
def cacheKeyModel (optsStr url : GoStr) : GoStr :=
  hexEncode (sha1 (url ++ 124 :: optsStr))

/-- `ImgProxy.downloadAndCache`, as a function of its environment: the
transform (`imageproxy.Transform` with the configured options), the options
string (for the cache key), the url, the `http.Get` outcome, and the
`ioutil.ReadAll` outcome for the body.  On a transform error the original
bytes are framed and served and the cache entry is deleted; on transform
success the transformed frame is cached when the upstream status is below
400. -/
def downloadAndCacheModel (transform : GoStr → Except GoStr GoStr)
    (optsStr url : GoStr) (fetch : Except GoStr UpstreamResp)
    (readBody : Except GoStr GoStr) : DownloadOutcome :=
  let cacheKey := cacheKeyModel optsStr url
  match fetch with
  | .error e => { respData := [], err := some e, cacheOps := [] }
  | .ok resp =>
    match readBody with
    | .error e => { respData := [], err := some e, cacheOps := [] }
    | .ok imgData =>
      let head := resp.proto ++ 32 :: resp.status ++ 10 :: resp.headersSubset
      match transform imgData with
      | .error _ =>
        { respData := head ++ contentLengthLine imgData.length ++ imgData,
          err := none,
          cacheOps := [CacheOp.del cacheKey] }
      | .ok transformed =>
        let buf := head ++ contentLengthLine transformed.length ++ transformed
        { respData := buf,
          err := none,
          cacheOps := if resp.statusCode < 400 then [CacheOp.set cacheKey buf] else [] }

/-- The coalescing state of the proxy: the `operations` map from url to the
pending download operation (its download object, identified by spawn number,
and its registered waiter channels), and the count of download goroutines
spawned so far (each performs exactly one upstream GET and at most one
transform).  `delivered` records each broadcast as (channel, download
object). -/
structure ProxyState where
  operations : List (GoStr × (Nat × List Nat))
  spawns : Nat
  delivered : List (Nat × Nat)
deriving DecidableEq

/-- A proxy with no outstanding operations. -/
def emptyProxyState : ProxyState := { operations := [], spawns := 0, delivered := [] }

/-- `ImgProxy.fetchFromUpstream` under `operationsMtx`: join the existing
operation for `url` as one more waiter, or create the operation, register,
publish it and spawn the download goroutine. -/
def fetchFromUpstreamM (st : ProxyState) (url : GoStr) (chanId : Nat) : ProxyState :=
  match alistLookup url st.operations with
  | some (did, chans) =>
    { st with operations := alistInsert url (did, chans ++ [chanId]) st.operations }
  | none =>
    { operations := alistInsert url (st.spawns, [chanId]) st.operations,
      spawns := st.spawns + 1,
      delivered := st.delivered }

/-- The tail of `downloadAndCache`: remove the operation from the map, then
broadcast the one download object to every registered waiter channel. -/
def completeDownloadM (st : ProxyState) (url : GoStr) : ProxyState :=
  match alistLookup url st.operations with
  | some (did, chans) =>
    { operations := alistRemove url st.operations,
      spawns := st.spawns,
      delivered := st.delivered ++ chans.map (fun c => (c, did)) }
  | none => st

/-- `n` callers (channels `0 .. n-1`) arriving for the same url, starting
from the empty proxy state. -/
def proxyArrivals (url : GoStr) (n : Nat) : ProxyState :=
  (List.range n).foldl (fun st c => fetchFromUpstreamM st url c) emptyProxyState

/-! ### The source aggregator (source.go) -/

/-- What one `pullSource` goroutine does with its `GetBlocks` result: a
successful source delivers its blocks to the receiver, a failing one
delivers nothing; either way the error value is sent on `sync_chan`. -/
def pullSourceM (r : Except GoStr (List Block)) : Option (List Block) × Option GoStr :=
  match r with
  | .error e => (none, some e)
  | .ok blocks => (some blocks, none)

/-- The collection loop of `SendBlocksTo`: receive each sent error in
completion order, keeping the first non-nil one. -/
def collectErrLoop (err : Option GoStr) : List (Option GoStr) → Option GoStr
  | [] => err
  | se :: rest => collectErrLoop (match err with | none => se | some e => some e) rest

/-- `Sources.SendBlocksTo`, as a function of the per-source `GetBlocks`
results listed in completion order: the returned error and the sequence of
`ReceiveBlocks` deliveries made to the receiver. -/
def sendBlocksToM (completed : List (Except GoStr (List Block))) :
    Option GoStr × List (List Block) :=
  (collectErrLoop none (completed.map (fun r => (pullSourceM r).2)),
   completed.filterMap (fun r => (pullSourceM r).1))

/-- Specification-side: the first error in completion order, if any. -/
def firstErrorSpec (completed : List (Except GoStr (List Block))) : Option GoStr :=
  (completed.filterMap (fun r =>
    match r with
    | .error e => some e
    | .ok _ => none)).head?

/-- Specification-side: the block lists of the successful sources, in
completion order. -/
def successesSpec (completed : List (Except GoStr (List Block))) : List (List Block) :=
  completed.filterMap (fun r =>
    match r with
    | .ok blocks => some blocks
    | .error _ => none)

end Honeybee

namespace Honeybee

/-! ## Theorems -/

/-! ### C9: ExpandHome -/

/-- C9: `ExpandHome` is partial on short inputs: every input of byte length
0 or 1 (the empty string included) panics on the `p[:2]` slice before any
length check (modelled by `none`), and every input of length at least 2 that
does not start with `~/` is returned unchanged. -/
theorem expandHome_short_panics_long_id (usr : Option GoStr) (p : GoStr) :
    (p.length < 2 → expandHome usr p = none) ∧
    (2 ≤ p.length → ¬ p.take 2 = [126, 47] → expandHome usr p = some p) := by
  constructor
  · intro h
    simp [expandHome, h]
  · intro h2 hp
    simp only [expandHome]
    rw [if_neg (by omega), if_neg hp]

/-- Witness for C9, at the empty string and at `"ab"`. -/
theorem expandHome_short_panics_long_id_witness :
    (([] : GoStr).length < 2 ∧ expandHome none [] = none) ∧
    (2 ≤ ([97, 98] : GoStr).length ∧ expandHome none [97, 98] = some [97, 98]) :=
  ⟨⟨by decide, (expandHome_short_panics_long_id none []).1 (by decide)⟩,
   ⟨by decide, (expandHome_short_panics_long_id none [97, 98]).2 (by decide) (by decide)⟩⟩

/-! ### C7: Sources.SendBlocksTo -/

/-- The error-collection loop keeps the first non-nil error of the sends. -/
theorem collectErrLoop_firstError (sends : List (Option GoStr)) :
    ∀ err : Option GoStr,
      collectErrLoop err sends =
        (match err with
         | some e => some e
         | none => (sends.filterMap id).head?) := by
  induction sends with
  | nil => intro err; cases err <;> rfl
  | cons se rest ih =>
    intro err
    cases err with
    | some e => rw [collectErrLoop, ih]
    | none =>
      rw [collectErrLoop, ih]
      cases se <;> simp

/-- C7: `SendBlocksTo` returns the first non-nil per-source error in
completion order (nil when no source failed), a failing source contributes
no delivery, and every successful source's blocks are delivered. -/
theorem sendBlocksTo_spec (completed : List (Except GoStr (List Block))) :
    (sendBlocksToM completed).1 = firstErrorSpec completed ∧
    (sendBlocksToM completed).2 = successesSpec completed := by
  constructor
  · rw [sendBlocksToM, collectErrLoop_firstError]
    simp only [firstErrorSpec, List.filterMap_map]
    congr 1
    apply List.filterMap_congr
    intro r _
    cases r <;> rfl
  · simp only [sendBlocksToM, successesSpec]
    apply List.filterMap_congr
    intro r _
    cases r <;> rfl

/-! ### C8: request coalescing in the image proxy -/

/-- After `n ≥ 1` arrivals for the same url from the empty state, exactly one
download was spawned and all `n` channels are registered on it. -/
theorem proxyArrivals_one_op (url : GoStr) :
    ∀ n : Nat, 1 ≤ n →
      proxyArrivals url n =
        { operations := [(url, (0, List.range n))], spawns := 1, delivered := [] } := by
  intro n
  induction n with
  | zero => omega
  | succ n ih =>
    intro _
    by_cases hn : 1 ≤ n
    · have hstep : proxyArrivals url (n + 1) =
          fetchFromUpstreamM (proxyArrivals url n) url n := by
        rw [proxyArrivals, proxyArrivals, List.range_succ, List.foldl_append, List.foldl_cons,
          List.foldl_nil]
      rw [hstep, ih hn]
      simp [fetchFromUpstreamM, alistLookup, alistInsert, List.range_succ]
    · have hn1 : n = 0 := by omega
      subst hn1
      rfl

/-- C8: `n ≥ 1` concurrent `ProxyImage` callers for the identical url, all
arriving while the download operation for that url is outstanding, cause
exactly one download goroutine to be spawned (hence exactly one upstream GET
and one transform invocation), and on completion every caller is handed the
identical download object. -/
theorem proxy_coalesces (url : GoStr) (n : Nat) (hn : 1 ≤ n) :
    (completeDownloadM (proxyArrivals url n) url).spawns = 1 ∧
    (completeDownloadM (proxyArrivals url n) url).operations = [] ∧
    (completeDownloadM (proxyArrivals url n) url).delivered =
      (List.range n).map (fun c => (c, 0)) := by
  rw [proxyArrivals_one_op url n hn]
  simp [completeDownloadM, alistLookup, alistRemove]

/-- Witness for C8 at `n = 3`. -/
theorem proxy_coalesces_witness :
    1 ≤ 3 ∧
    (completeDownloadM (proxyArrivals (strBytes "http://e/i.png") 3)
        (strBytes "http://e/i.png")).spawns = 1 ∧
    (completeDownloadM (proxyArrivals (strBytes "http://e/i.png") 3)
        (strBytes "http://e/i.png")).delivered = [(0, 0), (1, 0), (2, 0)] :=
  ⟨by decide,
   (proxy_coalesces (strBytes "http://e/i.png") 3 (by decide)).1,
   by rw [(proxy_coalesces (strBytes "http://e/i.png") 3 (by decide)).2.2]; rfl⟩


/-! ### C3: the refresh scheduler with interval 0 -/

/-- The cycle flag returned by `schedIter` is the `doUpdating` flag the
iteration was entered with. -/
theorem schedIter_ran (iv : Int) (s : SchedState) (p : Nat) (e : SchedEvent)
    (s2 : SchedState) (ran : Bool) (h : schedIter iv s p e = some (s2, ran)) :
    ran = s.doUpdating := by
  unfold schedIter at h
  cases e <;> split at h <;> (cases h <;> rfl)

/-- The loop body never raises a non-positive timeout back above zero when
the configured interval is non-positive. -/
theorem schedBody_nonpos (iv : Int) (s : SchedState) (p : Nat)
    (hs : s.updateTimeout ≤ 0) :
    (schedBody iv s p).updateTimeout ≤ 0 := by
  unfold schedBody
  split
  · dsimp only
    split <;> omega
  · exact hs

/-- An iteration entered with a non-positive body timeout cannot end in a
timer expiry, and keeps the timeout non-positive. -/
theorem schedIter_nonpos_wait (iv : Int) (s : SchedState) (p : Nat) (e : SchedEvent)
    (s2 : SchedState) (ran : Bool) (hb : (schedBody iv s p).updateTimeout ≤ 0)
    (h : schedIter iv s p e = some (s2, ran)) :
    s2.updateTimeout ≤ 0 ∧ e ≠ SchedEvent.timeout := by
  unfold schedIter at h
  rw [if_neg (by omega)] at h
  cases e with
  | timeout => cases h
  | signal b =>
    refine ⟨?_, by simp⟩
    simp only [Option.some.injEq, Prod.mk.injEq] at h
    rw [← h.1]
    exact hb

/-- With a non-positive interval, an iteration whose entry timeout is already
non-positive keeps it non-positive and cannot end in a timer expiry. -/
theorem schedIter_nonpos_preserved (iv : Int) (s : SchedState) (p : Nat) (e : SchedEvent)
    (s2 : SchedState) (ran : Bool) (hiv : iv ≤ 0) (hs : s.updateTimeout ≤ 0)
    (h : schedIter iv s p e = some (s2, ran)) :
    s2.updateTimeout ≤ 0 ∧ e ≠ SchedEvent.timeout :=
  schedIter_nonpos_wait iv s p e s2 ran (schedBody_nonpos iv s p hs) h

/-- With a non-positive interval, an iteration that runs a cycle pulling a
non-empty store leaves the timeout non-positive, and its wait cannot end in
a timer expiry. -/
theorem schedIter_cycle_disables_timer (iv : Int) (s : SchedState) (p : Nat) (e : SchedEvent)
    (s2 : SchedState) (ran : Bool) (hiv : iv ≤ 0) (hdo : s.doUpdating = true) (hp : 0 < p)
    (h : schedIter iv s p e = some (s2, ran)) :
    s2.updateTimeout ≤ 0 ∧ e ≠ SchedEvent.timeout := by
  refine schedIter_nonpos_wait iv s p e s2 ran ?_ h
  unfold schedBody
  rw [if_pos hdo]
  dsimp only
  by_cases hu : 0 < s.updateTimeout
  · rw [if_pos ⟨hu, hp⟩]; exact hiv
  · rw [if_neg (by omega)]; omega

/-- Once the timeout is non-positive and the configured interval is
non-positive, no wait of a completed run can end by a timer expiry. -/
theorem runSched_no_timeout_of_nonpos (iv : Int) (hiv : iv ≤ 0) :
    ∀ (tr : List (Nat × SchedEvent)) (s : SchedState), s.updateTimeout ≤ 0 →
      ∀ r, runSched iv s tr = some r → ∀ pe ∈ tr, pe.2 ≠ SchedEvent.timeout := by
  intro tr
  induction tr with
  | nil => intro s hs r hr pe hpe; cases hpe
  | cons pe0 rest ih =>
    intro s hs r hr pe hpe
    rcases pe0 with ⟨p, e⟩
    rw [runSched] at hr
    split at hr
    · cases hr
    next s2 ran hstep =>
      split at hr
      · cases hr
      next sf rans hrest =>
        obtain ⟨hs2, hne⟩ := schedIter_nonpos_preserved iv s p e s2 ran hiv hs hstep
        rcases List.mem_cons.mp hpe with rfl | hpe2
        · exact hne
        · exact ih s2 hs2 _ hrest pe hpe2

/-- C3 (amended): with a non-positive configured interval the loop can still
run timer-driven cycles, but only while every cycle performed so far pulled
an empty store; as soon as one cycle leaves the block store non-empty, the
timeout is set to the interval and only control signals drive the loop.
`rans` lists, per iteration, whether that iteration ran a cycle; iteration
`i + 1` runs after the wait of iteration `i`. -/
theorem sched_manual_mode_amended (iv : Int) (hiv : iv ≤ 0) :
    ∀ (tr : List (Nat × SchedEvent)) (s : SchedState) (sf : SchedState) (rans : List Bool),
      runSched iv s tr = some (sf, rans) →
      ∀ i, rans.getD (i + 1) false = true →
        (tr.getD i (0, SchedEvent.signal false)).2 = SchedEvent.timeout →
        ∀ j, j ≤ i → rans.getD j false = true →
          (tr.getD j (0, SchedEvent.signal false)).1 = 0 := by
  intro tr
  induction tr with
  | nil =>
    intro s sf rans hr i hi htime j hj hrj
    cases hr
    simp at hi
  | cons pe0 rest ih =>
    intro s sf rans hr i hi htime j hj hrj
    rcases pe0 with ⟨p, e⟩
    rw [runSched] at hr
    split at hr
    · cases hr
    next s2 ran hstep =>
      split at hr
      · cases hr
      next sf2 rans2 hrest =>
        simp only [Option.some.injEq, Prod.mk.injEq] at hr
        obtain ⟨hsf, hrans⟩ := hr
        subst hsf
        subst hrans
        cases j with
        | succ j2 =>
          cases i with
          | zero => omega
          | succ i2 =>
            exact ih s2 sf2 rans2 hrest i2 (by simpa using hi) (by simpa using htime)
              j2 (by omega) (by simpa using hrj)
        | zero =>
          simp only [List.getD_cons_zero] at hrj
          subst hrj
          simp only [List.getD_cons_zero]
          by_contra hp
          have hdo : s.doUpdating = true :=
            (schedIter_ran iv s p e s2 true hstep).symm
          obtain ⟨hs2, hne⟩ := schedIter_cycle_disables_timer iv s p e s2 true hiv hdo
            (by omega) hstep
          cases i with
          | zero => exact hne (by simpa using htime)
          | succ i2 =>
            have htime2 : (rest.getD i2 (0, SchedEvent.signal false)).2 =
                SchedEvent.timeout := by simpa using htime
            by_cases hlen : i2 < rest.length
            · have hmem : rest.getD i2 (0, SchedEvent.signal false) ∈ rest := by
                rw [List.getD_eq_getElem?_getD, List.getElem?_eq_getElem hlen]
                exact List.getElem_mem hlen
              exact runSched_no_timeout_of_nonpos iv hiv rest s2 hs2 _ hrest _ hmem htime2
            · rw [List.getD_eq_default _ _ (by omega)] at htime2
              cases htime2

/-- C3 (counterexample): with the steady-state interval configured to 0, the
loop enters via a start signal, the started cycle leaves the store empty, the
bootstrap ten-second timeout stays armed, and the next cycle (iteration 2,
flag `true`) runs because the wait of iteration 1 ended in a timer expiry —
not in response to any control signal. -/
theorem sched_timer_cycle_cx :
    runSched 0 schedInit schedCxTrace =
      some ({ doUpdating := false, updateTimeout := 10, storeSize := 0 }, [false, true, true]) ∧
    (schedCxTrace.getD 1 (0, SchedEvent.signal false)).2 = SchedEvent.timeout := by
  constructor
  · rfl
  · rfl

/-- Witness for the amended C3, on the counterexample trace itself: the
timer-driven cycle at iteration 2 is preceded only by the empty-store cycle
of iteration 1. -/
theorem sched_manual_mode_amended_witness :
    (0 : Int) ≤ 0 ∧
    (schedCxTrace.getD 1 (0, SchedEvent.signal false)).1 = 0 :=
  ⟨by decide,
   sched_manual_mode_amended 0 (by decide) schedCxTrace schedInit
     { doUpdating := false, updateTimeout := 10, storeSize := 0 } [false, true, true]
     (by decide) 1 (by decide) (by decide) 1 (by decide) (by decide)⟩

/-! ### C2: transform failure in downloadAndCache -/

/-- C2 (amended): when the upstream fetch succeeds but the image transform
fails, `downloadAndCache` frames and serves the untransformed original bytes
with no error, and instead of caching them it deletes any cache entry under
the url's cache key (the failure is also logged; logging is not modelled). -/
theorem downloadAndCache_transform_failure (transform : GoStr → Except GoStr GoStr)
    (optsStr url : GoStr) (resp : UpstreamResp) (imgData e : GoStr)
    (ht : transform imgData = Except.error e) :
    downloadAndCacheModel transform optsStr url (Except.ok resp) (Except.ok imgData) =
      { respData := (resp.proto ++ 32 :: resp.status ++ 10 :: resp.headersSubset) ++
          contentLengthLine imgData.length ++ imgData,
        err := none,
        cacheOps := [CacheOp.del (cacheKeyModel optsStr url)] } := by
  simp [downloadAndCacheModel, ht]

/-- A transform that always fails, for the concrete counterexample. -/
def cxFailingTransform : GoStr → Except GoStr GoStr :=
  fun _ => Except.error (strBytes "unrecognized format")

/-- The upstream response of the concrete counterexample. -/
def cxUpstreamResp : UpstreamResp :=
  { proto := strBytes "HTTP/1.1", status := strBytes "200 OK",
    headersSubset := strBytes "Content-Type: image/png\x0a", statusCode := 200 }

/-- C2 (counterexample): on a successful fetch whose transform fails, the
only cache effect is a deletion of the url's cache entry — the original
bytes are served (they end the framed response) but are not cached, so the
claim that the original bytes are cached under the url's key is false. -/
theorem downloadAndCache_no_caching_cx :
    (downloadAndCacheModel cxFailingTransform (strBytes "opts") (strBytes "http://h/a.png")
        (Except.ok cxUpstreamResp) (Except.ok [1, 2, 3])).cacheOps =
      [CacheOp.del (cacheKeyModel (strBytes "opts") (strBytes "http://h/a.png"))] ∧
    (downloadAndCacheModel cxFailingTransform (strBytes "opts") (strBytes "http://h/a.png")
        (Except.ok cxUpstreamResp) (Except.ok [1, 2, 3])).respData =
      (cxUpstreamResp.proto ++ 32 :: cxUpstreamResp.status ++ 10 :: cxUpstreamResp.headersSubset)
        ++ contentLengthLine 3 ++ [1, 2, 3] := by
  constructor
  · rfl
  · rfl

/-- Witness for the amended C2, at the counterexample inputs. -/
theorem downloadAndCache_transform_failure_witness :
    cxFailingTransform [1, 2, 3] = Except.error (strBytes "unrecognized format") ∧
    downloadAndCacheModel cxFailingTransform (strBytes "o") (strBytes "u")
        (Except.ok cxUpstreamResp) (Except.ok [1, 2, 3]) =
      { respData := (cxUpstreamResp.proto ++ 32 :: cxUpstreamResp.status ++
            10 :: cxUpstreamResp.headersSubset) ++ contentLengthLine 3 ++ [1, 2, 3],
        err := none,
        cacheOps := [CacheOp.del (cacheKeyModel (strBytes "o") (strBytes "u"))] } :=
  ⟨rfl,
   by
    have h := downloadAndCache_transform_failure cxFailingTransform (strBytes "o")
      (strBytes "u") cxUpstreamResp [1, 2, 3] (strBytes "unrecognized format") rfl
    simpa using h⟩

/-! ### C6: ForgetSome full rotation -/

/-- Unfolding `iterForget` from the back. -/
theorem iterForget_succ (c : FCache) : ∀ n, iterForget c (n + 1) = forgetSome (iterForget c n) := by
  intro n
  induction n generalizing c with
  | zero => rfl
  | succ n ih =>
    show iterForget (forgetSome c) (n + 1) = _
    rw [ih (forgetSome c)]
    rfl

/-- The configured percentage never changes across `ForgetSome` calls. -/
theorem iterForget_percent (c : FCache) : ∀ n, (iterForget c n).forgetPercent = c.forgetPercent := by
  intro n
  induction n generalizing c with
  | zero => rfl
  | succ n ih => exact (ih (forgetSome c)).trans rfl

/-- Distinct rotation offsets below the modulus give distinct counters. -/
theorem emod_rotation_inj (m c0 : Int) (hm : 0 < m) (i j : Nat)
    (hi : (i : Int) < m) (hj : (j : Int) < m)
    (h : (c0 + i) % m = (c0 + j) % m) : i = j := by
  have hsub : ((i : Int) - j) % m = 0 := by
    have h2 : ((c0 + i) - (c0 + j)) % m = 0 := by
      rw [Int.sub_emod, h, sub_self, Int.zero_emod]
    have h3 : (c0 + i) - (c0 + j) = (i : Int) - j := by ring
    rwa [h3] at h2
  obtain ⟨t, ht⟩ := Int.dvd_of_emod_eq_zero hsub
  have hlt : m * t < m * 1 := by
    rw [← ht]
    have : (0 : Int) ≤ j := Int.natCast_nonneg j
    omega
  have hgt : m * (-1) < m * t := by
    rw [← ht]
    have : (0 : Int) ≤ i := Int.natCast_nonneg i
    omega
  have ht1 : t < 1 := (mul_lt_mul_left hm).mp hlt
  have ht2 : (-1 : Int) < t := (mul_lt_mul_left hm).mp hgt
  have ht0 : t = 0 := by omega
  rw [ht0, mul_zero] at ht
  omega

/-- The counter visited on call `i` is the start counter rotated by `i`. -/
theorem iterForget_counter (c : FCache) (hc0 : 0 ≤ c.forgetCounter)
    (hcm : c.forgetCounter < forgetModValue c.forgetPercent) :
    ∀ i, (iterForget c i).forgetCounter =
      (c.forgetCounter + i) % forgetModValue c.forgetPercent := by
  have hm : 0 < forgetModValue c.forgetPercent := by omega
  intro i
  induction i with
  | zero =>
    show c.forgetCounter = _
    rw [Nat.cast_zero, add_zero, Int.emod_eq_of_lt hc0 hcm]
  | succ i ih =>
    rw [iterForget_succ]
    show (if (iterForget c i).forgetCounter + 1 = forgetModValue (iterForget c i).forgetPercent
         then 0 else (iterForget c i).forgetCounter + 1) = _
    rw [iterForget_percent, ih]
    have ha0 : 0 ≤ (c.forgetCounter + i) % forgetModValue c.forgetPercent :=
      Int.emod_nonneg _ (by omega)
    have ham : (c.forgetCounter + i) % forgetModValue c.forgetPercent <
        forgetModValue c.forgetPercent := Int.emod_lt_of_pos _ hm
    have hstep : (c.forgetCounter + (i : Int) + 1) % forgetModValue c.forgetPercent =
        ((c.forgetCounter + i) % forgetModValue c.forgetPercent + 1) %
          forgetModValue c.forgetPercent := by
      conv_lhs => rw [Int.add_emod]
      conv_rhs => rw [Int.add_emod, Int.emod_emod_of_dvd _ dvd_rfl]
    by_cases heq : (c.forgetCounter + i) % forgetModValue c.forgetPercent + 1 =
        forgetModValue c.forgetPercent
    · rw [if_pos heq, Nat.cast_add, Nat.cast_one, ← add_assoc, hstep, heq, Int.emod_self]
    · rw [if_neg heq, Nat.cast_add, Nat.cast_one, ← add_assoc, hstep]
      symm
      exact Int.emod_eq_of_lt (by omega) (by omega)

/-- Key `k` survives the first `i` calls exactly when its checksum residue
misses every counter visited so far. -/
theorem iterForget_mem (c : FCache) (hc0 : 0 ≤ c.forgetCounter)
    (hcm : c.forgetCounter < forgetModValue c.forgetPercent) (k : GoStr) :
    ∀ i, (k ∈ (iterForget c i).keys ↔ k ∈ c.keys ∧ ∀ j, j < i →
      ¬ ((crc32 k : Int) % forgetModValue c.forgetPercent =
          (c.forgetCounter + j) % forgetModValue c.forgetPercent)) := by
  intro i
  induction i with
  | zero =>
    show k ∈ c.keys ↔ _
    simp
  | succ i ih =>
    rw [iterForget_succ]
    show k ∈ List.filter _ (iterForget c i).keys ↔ _
    rw [List.mem_filter]
    rw [iterForget_percent, iterForget_counter c hc0 hcm]
    constructor
    · rintro ⟨hmem, hpred⟩
      obtain ⟨hck, hall⟩ := ih.mp hmem
      refine ⟨hck, ?_⟩
      intro j hj
      rcases Nat.lt_succ_iff_lt_or_eq.mp hj with hj2 | hj2
      · exact hall j hj2
      · subst hj2
        simpa using hpred
    · rintro ⟨hck, hall⟩
      refine ⟨ih.mpr ⟨hck, fun j hj => hall j (by omega)⟩, ?_⟩
      simpa using hall i (by omega)

/-- C6: with `forgetPercent` in `(0, 100]` and `modValue = 100 / forgetPercent`,
starting from any reachable counter (`0 ≤ counter < modValue`), a run of
`modValue` consecutive `ForgetSome` calls with no intervening writes erases
each key present at the start in exactly one of those calls. -/
theorem forgetSome_full_rotation (c : FCache) (hp : 0 < c.forgetPercent)
    (hp100 : c.forgetPercent ≤ 100) (hc0 : 0 ≤ c.forgetCounter)
    (hcm : c.forgetCounter < forgetModValue c.forgetPercent)
    (k : GoStr) (hk : k ∈ c.keys) :
    ∃ i, i < (forgetModValue c.forgetPercent).toNat ∧ erasedAt c i k ∧
      ∀ j, j < (forgetModValue c.forgetPercent).toNat → erasedAt c j k → j = i := by
  set m := forgetModValue c.forgetPercent with hmdef
  have hm : 0 < m := by omega
  set h0 := (crc32 k : Int) % m with h0def
  have hh0 : 0 ≤ h0 := Int.emod_nonneg _ (by omega)
  have hh0m : h0 < m := Int.emod_lt_of_pos _ hm
  set iZ := (h0 - c.forgetCounter) % m with hiZdef
  have hiZ0 : 0 ≤ iZ := Int.emod_nonneg _ (by omega)
  have hiZm : iZ < m := Int.emod_lt_of_pos _ hm
  refine ⟨iZ.toNat, ?_, ?_, ?_⟩
  · omega
  case refine_2 =>
    have hmatch : (c.forgetCounter + (iZ.toNat : Int)) % m = h0 := by
      rw [Int.toNat_of_nonneg hiZ0, hiZdef]
      conv_lhs => rw [Int.add_emod, Int.emod_emod_of_dvd _ dvd_rfl, ← Int.add_emod]
      have : c.forgetCounter + (h0 - c.forgetCounter) = h0 := by ring
      rw [this, Int.emod_eq_of_lt hh0 hh0m]
    have hbefore : ∀ j, j < iZ.toNat →
        ¬ ((crc32 k : Int) % m = (c.forgetCounter + j) % m) := by
      intro j hj heq
      have : j = iZ.toNat := by
        refine emod_rotation_inj m c.forgetCounter hm j iZ.toNat (by omega) (by omega) ?_
        rw [hmatch, ← heq]
      omega
    constructor
    · exact (iterForget_mem c hc0 hcm k iZ.toNat).mpr ⟨hk, hbefore⟩
    · intro hmem
      obtain ⟨hck2, hall⟩ := (iterForget_mem c hc0 hcm k (iZ.toNat + 1)).mp hmem
      exact hall iZ.toNat (by omega) (by rw [hmatch])
  case refine_3 =>
    have hmatch : (c.forgetCounter + (iZ.toNat : Int)) % m = h0 := by
      rw [Int.toNat_of_nonneg hiZ0, hiZdef]
      conv_lhs => rw [Int.add_emod, Int.emod_emod_of_dvd _ dvd_rfl, ← Int.add_emod]
      have : c.forgetCounter + (h0 - c.forgetCounter) = h0 := by ring
      rw [this, Int.emod_eq_of_lt hh0 hh0m]
    intro j hj herase
    obtain ⟨hmemj, hnotj⟩ := herase
    obtain ⟨hck2, hallj⟩ := (iterForget_mem c hc0 hcm k j).mp hmemj
    by_contra hne
    apply hnotj
    refine (iterForget_mem c hc0 hcm k (j + 1)).mpr ⟨hck2, ?_⟩
    intro j2 hj2
    rcases Nat.lt_succ_iff_lt_or_eq.mp hj2 with hj3 | hj3
    · exact hallj j2 hj3
    · subst hj3
      intro heq
      apply hne
      refine emod_rotation_inj m c.forgetCounter hm j2 iZ.toNat (by omega) (by omega) ?_
      rw [hmatch, ← heq]

/-- A concrete forgetting cache holding one key, percentage 50 (so
`modValue = 2`), counter 0. -/
def witnessFCache : FCache :=
  { keys := [strBytes "k1"], forgetPercent := 50, forgetCounter := 0 }

/-- Witness for C6 at a concrete cache with `forgetPercent = 50`. -/
theorem forgetSome_full_rotation_witness :
    (0 < witnessFCache.forgetPercent ∧ witnessFCache.forgetPercent ≤ 100 ∧
      0 ≤ witnessFCache.forgetCounter ∧
      witnessFCache.forgetCounter < forgetModValue witnessFCache.forgetPercent ∧
      strBytes "k1" ∈ witnessFCache.keys) ∧
    (∃ i, i < (forgetModValue witnessFCache.forgetPercent).toNat ∧
      erasedAt witnessFCache i (strBytes "k1") ∧
      ∀ j, j < (forgetModValue witnessFCache.forgetPercent).toNat →
        erasedAt witnessFCache j (strBytes "k1") → j = i) :=
  ⟨⟨by decide, by decide, by decide, by decide, by decide⟩,
   forgetSome_full_rotation witnessFCache (by decide) (by decide) (by decide) (by decide)
     (strBytes "k1") (by decide)⟩

/-! ### Sorting lemmas for the block store -/

/-- Inserting into the sorted prefix is a permutation. -/
theorem sortInsert_perm (x : Block) : ∀ l : List Block, (sortInsert x l).Perm (x :: l) := by
  intro l
  induction l with
  | nil => rfl
  | cons y ys ih =>
    rw [sortInsert]
    split
    · rfl
    · exact (ih.cons y).trans (List.Perm.swap x y ys)

/-- The insertion sort of the block store is a permutation. -/
theorem sortBlocks_perm_aux :
    ∀ (l acc : List Block), ((l.foldl (fun a x => sortInsert x a) acc)).Perm (acc ++ l) := by
  intro l
  induction l with
  | nil => intro acc; simp
  | cons x xs ih =>
    intro acc
    rw [List.foldl_cons]
    refine (ih (sortInsert x acc)).trans ?_
    refine (((sortInsert_perm x acc).append_right xs).trans ?_)
    exact List.perm_middle.symm

/-- `sortBlocks` permutes its input. -/
theorem sortBlocks_perm (l : List Block) : (sortBlocks l).Perm l := by
  simpa using sortBlocks_perm_aux l []

/-- Inserting into a sorted list keeps it sorted. -/
theorem sortInsert_sorted (x : Block) :
    ∀ l : List Block, blocksSorted l → blocksSorted (sortInsert x l) := by
  intro l
  induction l with
  | nil => intro _; exact List.pairwise_singleton _ _
  | cons y ys ih =>
    intro h
    obtain ⟨hy, hys⟩ := List.pairwise_cons.mp h
    rw [sortInsert]
    split
    next hxy =>
      refine List.pairwise_cons.mpr ⟨?_, h⟩
      intro z hz
      rcases List.mem_cons.mp hz with rfl | hz2
      · simp only [blockLess, decide_eq_true_eq] at hxy ⊢
        simp only [decide_eq_false_iff_not]
        omega
      · have := hy z hz2
        simp only [blockLess, decide_eq_true_eq] at hxy
        simp only [blockLess, decide_eq_false_iff_not] at this ⊢
        omega
    next hxy =>
      refine List.pairwise_cons.mpr ⟨?_, ih hys⟩
      intro z hz
      rcases List.mem_cons.mp ((sortInsert_perm x ys).mem_iff.mp hz) with rfl | hz2
      · simpa using hxy
      · exact hy z hz2

/-- The fold of `sortBlocks` keeps the accumulator sorted. -/
theorem sortBlocks_sorted_aux :
    ∀ (l acc : List Block), blocksSorted acc →
      blocksSorted (l.foldl (fun a x => sortInsert x a) acc) := by
  intro l
  induction l with
  | nil => intro acc h; exact h
  | cons x xs ih =>
    intro acc h
    rw [List.foldl_cons]
    exact ih _ (sortInsert_sorted x acc h)

/-- `sortBlocks` sorts by timestamp descending. -/
theorem sortBlocks_sorted (l : List Block) : blocksSorted (sortBlocks l) :=
  sortBlocks_sorted_aux l [] List.Pairwise.nil

/-! ### Purge and ReceiveBlocks lemmas -/

/-- The purge loop panics exactly when some stored block has a nil origin. -/
theorem purgeBlocks_none_iff (srcIds : List GoStr) :
    ∀ (blocks : List Block) (idx : List (GoStr × Block)),
      purgeBlocks srcIds idx blocks = none ↔ ∃ b ∈ blocks, b.origin = none := by
  intro blocks
  induction blocks with
  | nil =>
    intro idx
    simp [purgeBlocks]
  | cons b rest ih =>
    intro idx
    rw [purgeBlocks]
    cases hb : b.origin with
    | none =>
      simp only []
      constructor
      · intro _; exact ⟨b, List.mem_cons_self b rest, hb⟩
      · intro _; trivial
    | some oid =>
      simp only []
      split
      · rw [ih]
        constructor
        · rintro ⟨b2, hb2, hb2n⟩
          exact ⟨b2, List.mem_cons_of_mem b hb2, hb2n⟩
        · rintro ⟨b2, hb2, hb2n⟩
          rcases List.mem_cons.mp hb2 with rfl | hb3
          · rw [hb] at hb2n; cases hb2n
          · exact ⟨b2, hb3, hb2n⟩
      · rcases hrec : purgeBlocks srcIds idx rest with _ | pair
        · simp only []
          constructor
          · intro _
            obtain ⟨b2, hb2, hb2n⟩ := (ih idx).mp hrec
            exact ⟨b2, List.mem_cons_of_mem b hb2, hb2n⟩
          · intro _; trivial
        · simp only []
          constructor
          · intro hcon; cases hcon
          · rintro ⟨b2, hb2, hb2n⟩
            rcases List.mem_cons.mp hb2 with rfl | hb3
            · rw [hb] at hb2n; cases hb2n
            · have : purgeBlocks srcIds idx rest = none := (ih idx).mpr ⟨b2, hb3, hb2n⟩
              rw [this] at hrec
              cases hrec

/-- A successful purge keeps exactly the stored blocks whose source id is
not among the incoming ones. -/
theorem purgeBlocks_keep (srcIds : List GoStr) :
    ∀ (blocks : List Block) (idx idx2 : List (GoStr × Block)) (keep : List Block),
      purgeBlocks srcIds idx blocks = some (idx2, keep) →
      keep = blocks.filter (fun b => decide (b.origin.getD [] ∉ srcIds)) := by
  intro blocks
  induction blocks with
  | nil =>
    intro idx idx2 keep h
    simp only [purgeBlocks, Option.some.injEq, Prod.mk.injEq] at h
    rw [← h.2]
    rfl
  | cons b rest ih =>
    intro idx idx2 keep h
    rw [purgeBlocks] at h
    cases hb : b.origin with
    | none => rw [hb] at h; cases h
    | some oid =>
      rw [hb] at h
      simp only [] at h
      rw [List.filter_cons]
      split at h
      next hmem =>
        rw [ih _ _ _ h]
        have : (decide (b.origin.getD [] ∉ srcIds)) = false := by
          simp [hb, hmem]
        rw [this]
        simp
      next hmem =>
        rcases hrec : purgeBlocks srcIds idx rest with _ | pair
        · rw [hrec] at h; cases h
        · rw [hrec] at h
          rcases pair with ⟨idx3, keep2⟩
          simp only [Option.some.injEq, Prod.mk.injEq] at h
          have : (decide (b.origin.getD [] ∉ srcIds)) = true := by
            simp [hb, hmem]
          rw [this]
          simp only [if_true]
          rw [← h.2, ih _ _ _ hrec]

/-- A purge over blocks with non-nil origins succeeds. -/
theorem purgeBlocks_isSome (srcIds : List GoStr) (blocks : List Block)
    (idx : List (GoStr × Block)) (h : ∀ b ∈ blocks, ¬ b.origin = none) :
    (purgeBlocks srcIds idx blocks).isSome = true := by
  rcases hp : purgeBlocks srcIds idx blocks with _ | pair
  · obtain ⟨b, hb, hbn⟩ := (purgeBlocks_none_iff srcIds blocks idx).mp hp
    exact absurd hbn (h b hb)
  · rfl

/-- `ReceiveBlocks` panics exactly when some stored block has a nil origin. -/
theorem receiveBlocks_none_iff (bs : BlockStore) (nb : List Block) :
    receiveBlocks bs nb = none ↔ ∃ b ∈ bs.blocks, b.origin = none := by
  unfold receiveBlocks
  split
  next hp =>
    constructor
    · intro _
      exact (purgeBlocks_none_iff (collectSourceIds nb) bs.blocks bs.index).mp hp
    · intro _; rfl
  next idx keep hp =>
    constructor
    · intro hcon; cases hcon
    · intro hex
      have hnone := (purgeBlocks_none_iff (collectSourceIds nb) bs.blocks bs.index).mpr hex
      rw [hnone] at hp
      cases hp

/-- The block sequence a successful `ReceiveBlocks` leaves behind: the
retained blocks followed by all of `newBlocks`, re-sorted. -/
theorem receiveBlocks_blocks (bs : BlockStore) (nb : List Block) (st2 : BlockStore)
    (h : receiveBlocks bs nb = some st2) :
    st2.blocks = sortBlocks
      ((bs.blocks.filter (fun b => decide (b.origin.getD [] ∉ collectSourceIds nb))) ++ nb) := by
  unfold receiveBlocks at h
  split at h
  · cases h
  next idx keep hp =>
    simp only [Option.some.injEq] at h
    rw [← h]
    simp only []
    rw [purgeBlocks_keep (collectSourceIds nb) bs.blocks bs.index idx keep hp]

/-- Every store a successful `ReceiveBlocks` produces is sorted by timestamp
descending. -/
theorem receiveBlocks_sorted (bs : BlockStore) (nb : List Block) (st2 : BlockStore)
    (h : receiveBlocks bs nb = some st2) : blocksSorted st2.blocks := by
  rw [receiveBlocks_blocks bs nb st2 h]
  exact sortBlocks_sorted _

/-! ### C10: nil-origin blocks -/

/-- C10: `ReceiveBlocks` has an undocumented non-nil-origin precondition: a
block with a nil origin is accepted and inserted (merely skipped when the
source ids are collected), and every subsequent call then panics in the
purge loop, which calls `block.Origin.Id()` on each stored block without a
nil check. -/
theorem receiveBlocks_nil_origin_time_bomb (st : BlockStore) (c : List Block) (b0 : Block)
    (hb0 : b0 ∈ c) (hnil : b0.origin = none) (hok : ∀ b ∈ st.blocks, ¬ b.origin = none) :
    ∃ st2, receiveBlocks st c = some st2 ∧ b0 ∈ st2.blocks ∧
      ∀ c2, receiveBlocks st2 c2 = none := by
  rcases hp : receiveBlocks st c with _ | st2
  · exfalso
    obtain ⟨b, hb, hbn⟩ := (receiveBlocks_none_iff st c).mp hp
    exact hok b hb hbn
  · refine ⟨st2, rfl, ?_, ?_⟩
    · rw [receiveBlocks_blocks st c st2 hp]
      rw [(sortBlocks_perm _).mem_iff]
      exact List.mem_append_right _ hb0
    · intro c2
      refine (receiveBlocks_none_iff st2 c2).mpr ⟨b0, ?_, hnil⟩
      rw [receiveBlocks_blocks st c st2 hp]
      rw [(sortBlocks_perm _).mem_iff]
      exact List.mem_append_right _ hb0

/-- A block with a nil origin, for the C10 witness. -/
def nilOriginBlock : Block :=
  { origin := none, title := strBytes "t", imageLink := [], imageWidth := 0,
    imageHeight := 0, link := [], content := [], timeStamp := 5 }

/-- Witness for C10: feeding the nil-origin block to the empty store
succeeds, and the very next call (here with an empty block list) panics. -/
theorem receiveBlocks_nil_origin_time_bomb_witness :
    (nilOriginBlock ∈ [nilOriginBlock] ∧ nilOriginBlock.origin = none) ∧
    receiveBlocks ((receiveBlocks emptyBlockStore [nilOriginBlock]).getD emptyBlockStore)
      [] = none := by
  refine ⟨⟨List.mem_cons_self _ _, rfl⟩, ?_⟩
  obtain ⟨st2, h1, _, h3⟩ := receiveBlocks_nil_origin_time_bomb emptyBlockStore
    [nilOriginBlock] nilOriginBlock (List.mem_cons_self _ _) rfl (by intro b hb; cases hb)
  rw [h1]
  exact h3 []

/-- Filtering by a stronger predicate absorbs a weaker filter. -/
theorem filter_filter_of_imp {α : Type} (p q : α → Bool) :
    ∀ l : List α, (∀ a ∈ l, p a = true → q a = true) →
      (l.filter q).filter p = l.filter p := by
  intro l
  induction l with
  | nil => intro _; rfl
  | cons x xs ih =>
    intro h
    have htail := ih (fun a ha => h a (List.mem_cons_of_mem x ha))
    rw [List.filter_cons]
    by_cases hq : q x = true
    · rw [if_pos hq, List.filter_cons, List.filter_cons, htail]
    · have hpq : p x = false := by
        cases hpx : p x
        · rfl
        · exact absurd (h x (List.mem_cons_self x xs) hpx) hq
      rw [if_neg hq, List.filter_cons, hpq, htail]
      simp

/-! ### C5: frame property for uninvolved sources -/

/-- Pairwise strict descent follows from the Go sort order together with
pairwise distinct timestamps. -/
theorem pairwise_strict_of_sorted_nodup (l : List Block)
    (hs : l.Pairwise (fun a b => blockLess b a = false))
    (hnd : (l.map (fun b => b.timeStamp)).Nodup) :
    l.Pairwise (fun a b => b.timeStamp < a.timeStamp) := by
  have hne : l.Pairwise (fun a b => ¬ a.timeStamp = b.timeStamp) :=
    List.pairwise_map.mp hnd
  refine (hs.and hne).imp ?_
  intro a b hab
  obtain ⟨h1, h2⟩ := hab
  simp only [blockLess, decide_eq_false_iff_not, Int.not_lt] at h1
  omega

/-- Eight blocks for the tie-reordering counterexample: the store holds, in
descending timestamp order, one block of source `c` at time 9, source `b`'s
two blocks both at time 8, and four more `c` blocks at times 4, 3, 2, 1;
the incoming block of source `a` carries time 10. -/
def cxTieC9 : Block :=
  { origin := some [99], title := strBytes "c9", imageLink := [], imageWidth := 0,
    imageHeight := 0, link := [], content := [], timeStamp := 9 }

def cxTieB1 : Block :=
  { origin := some [98], title := strBytes "b1", imageLink := [], imageWidth := 0,
    imageHeight := 0, link := [], content := [], timeStamp := 8 }

def cxTieB2 : Block :=
  { origin := some [98], title := strBytes "b2", imageLink := [], imageWidth := 0,
    imageHeight := 0, link := [], content := [], timeStamp := 8 }

def cxTieD4 : Block :=
  { origin := some [99], title := strBytes "d4", imageLink := [], imageWidth := 0,
    imageHeight := 0, link := [], content := [], timeStamp := 4 }

def cxTieD3 : Block :=
  { origin := some [99], title := strBytes "d3", imageLink := [], imageWidth := 0,
    imageHeight := 0, link := [], content := [], timeStamp := 3 }

def cxTieD2 : Block :=
  { origin := some [99], title := strBytes "d2", imageLink := [], imageWidth := 0,
    imageHeight := 0, link := [], content := [], timeStamp := 2 }

def cxTieD1 : Block :=
  { origin := some [99], title := strBytes "d1", imageLink := [], imageWidth := 0,
    imageHeight := 0, link := [], content := [], timeStamp := 1 }

def cxTieA10 : Block :=
  { origin := some [97], title := strBytes "a10", imageLink := [], imageWidth := 0,
    imageHeight := 0, link := [], content := [], timeStamp := 10 }

/-- The stored sequence of the counterexample. -/
def cxTieBlocks : List Block :=
  [cxTieC9, cxTieB1, cxTieB2, cxTieD4, cxTieD3, cxTieD2, cxTieD1]

/-- The counterexample store: the seven blocks above with a consistent id
index. -/
def cxTieStore : BlockStore :=
  { blocks := cxTieBlocks,
    index := cxTieBlocks.foldl (fun m b => alistInsert (blockId b) b m) [] }

/-- C5 (counterexample): with eight blocks in play, Go's `sort.Sort` runs
its small-slice path (a gap-6 shellsort pass, then insertion sort), and the
gap-6 pass lets the incoming time-10 block of source `a` displace source
`b`'s first block six positions back, past its equal-timestamp sibling:
after the call the stored `b` blocks appear in the opposite order, so the
call does not leave source `b`'s blocks "in the same relative order".  All
hypotheses of the claim hold at this input: the store is sorted, the call
completes, and `newBlocks` contains no block of source `b`. -/
theorem receiveBlocks_reorders_ties_cx :
    (([98] : GoStr) ∉ collectSourceIds [cxTieA10] ∧ blocksSorted cxTieStore.blocks ∧
      (receiveBlocksGoSortSmall cxTieStore [cxTieA10]).isSome = true) ∧
    cxTieStore.blocks.filter (fun b => decide (b.origin = some [98])) =
      [cxTieB1, cxTieB2] ∧
    ((receiveBlocksGoSortSmall cxTieStore [cxTieA10]).getD emptyBlockStore).blocks.filter
        (fun b => decide (b.origin = some [98])) = [cxTieB2, cxTieB1] ∧
    ¬ ((receiveBlocksGoSortSmall cxTieStore [cxTieA10]).getD emptyBlockStore).blocks.filter
          (fun b => decide (b.origin = some [98])) =
        cxTieStore.blocks.filter (fun b => decide (b.origin = some [98])) :=
  ⟨⟨by decide, by decide, rfl⟩, by decide, by decide, by decide⟩

/-- C5 (amended): a `ReceiveBlocks` call whose `newBlocks` contains no block
of source `B` retains exactly the stored `B` blocks (the filtered sequences
are permutations), for every `Less`-sorted permutation `out` that
`sort.Sort` may produce from the purged-plus-new slice; and whenever no two
stored `B` blocks share a timestamp, their relative order is preserved as
well.  `sort.Sort` is not stable, so on timestamp ties the order is not
guaranteed (`receiveBlocks_reorders_ties_cx`).  The `blocksSorted`
hypothesis holds for every reachable store (`receiveBlocks_sorted`). -/
theorem receiveBlocks_preserves_other_sources_amended (st : BlockStore)
    (newBlocks : List Block) (B : GoStr) (hB : B ∉ collectSourceIds newBlocks)
    (hsorted : blocksSorted st.blocks)
    (idx : List (GoStr × Block)) (keep : List Block)
    (hpurge : purgeBlocks (collectSourceIds newBlocks) st.index st.blocks = some (idx, keep))
    (out : List Block) (hperm : out.Perm (keep ++ newBlocks)) (hout : blocksSorted out) :
    (out.filter (fun b => decide (b.origin = some B))).Perm
      (st.blocks.filter (fun b => decide (b.origin = some B))) ∧
    (((st.blocks.filter (fun b => decide (b.origin = some B))).map
        (fun b => b.timeStamp)).Nodup →
      out.filter (fun b => decide (b.origin = some B)) =
        st.blocks.filter (fun b => decide (b.origin = some B))) := by
  have hkeepeq :=
    purgeBlocks_keep (collectSourceIds newBlocks) st.blocks st.index idx keep hpurge
  have hnew : newBlocks.filter (fun b => decide (b.origin = some B)) = [] := by
    rw [List.filter_eq_nil_iff]
    intro b hb
    simp only [decide_eq_true_eq]
    intro hbB
    exact hB (List.mem_filterMap.mpr ⟨b, hb, hbB⟩)
  have hkeepf : keep.filter (fun b => decide (b.origin = some B)) =
      st.blocks.filter (fun b => decide (b.origin = some B)) := by
    rw [hkeepeq]
    apply filter_filter_of_imp
    intro b _
    simp only [decide_eq_true_eq]
    intro hbB
    rw [hbB]
    simpa using hB
  have hpermf : (out.filter (fun b => decide (b.origin = some B))).Perm
      (st.blocks.filter (fun b => decide (b.origin = some B))) := by
    have h1 := hperm.filter (fun b => decide (b.origin = some B))
    rw [List.filter_append, hnew, List.append_nil, hkeepf] at h1
    exact h1
  refine ⟨hpermf, ?_⟩
  intro hnd
  haveI : IsAntisymm Block (fun a b => b.timeStamp < a.timeStamp) :=
    ⟨fun a b h1 h2 => absurd h1 (by omega)⟩
  have hndo : ((out.filter (fun b => decide (b.origin = some B))).map
      (fun b => b.timeStamp)).Nodup :=
    ((hpermf.map (fun b => b.timeStamp)).nodup_iff).mpr hnd
  have hs1 : List.Sorted (fun a b : Block => b.timeStamp < a.timeStamp)
      (out.filter (fun b => decide (b.origin = some B))) :=
    pairwise_strict_of_sorted_nodup _
      (List.Pairwise.sublist (List.filter_sublist _) hout) hndo
  have hs2 : List.Sorted (fun a b : Block => b.timeStamp < a.timeStamp)
      (st.blocks.filter (fun b => decide (b.origin = some B))) :=
    pairwise_strict_of_sorted_nodup _
      (List.Pairwise.sublist (List.filter_sublist _) hsorted) hnd
  exact List.eq_of_perm_of_sorted hpermf hs1 hs2

/-- A block of source `a`, for witnesses. -/
def blockOfA : Block :=
  { origin := some [97], title := strBytes "ta", imageLink := [], imageWidth := 0,
    imageHeight := 0, link := [], content := [], timeStamp := 3 }

/-- A block of source `b`, for witnesses. -/
def blockOfB : Block :=
  { origin := some [98], title := strBytes "tb", imageLink := [], imageWidth := 0,
    imageHeight := 0, link := [], content := [], timeStamp := 7 }

/-- The store holding `blockOfA`, reached by one call from the empty store. -/
def storeWithA : BlockStore := (receiveBlocks emptyBlockStore [blockOfA]).getD emptyBlockStore

/-- Witness for the amended C5: receiving a source-`b` block, with the
sorted output `[blockOfB, blockOfA]`, leaves source `a`'s stored blocks --
which have pairwise distinct timestamps -- exactly in place. -/
theorem receiveBlocks_preserves_other_sources_amended_witness :
    (([97] : GoStr) ∉ collectSourceIds [blockOfB] ∧ blocksSorted storeWithA.blocks ∧
      ([blockOfB, blockOfA] : List Block).Perm (storeWithA.blocks ++ [blockOfB]) ∧
      blocksSorted [blockOfB, blockOfA] ∧
      ((storeWithA.blocks.filter (fun b => decide (b.origin = some [97]))).map
          (fun b => b.timeStamp)).Nodup) ∧
    (([blockOfB, blockOfA].filter (fun b => decide (b.origin = some [97]))).Perm
        (storeWithA.blocks.filter (fun b => decide (b.origin = some [97]))) ∧
      [blockOfB, blockOfA].filter (fun b => decide (b.origin = some [97])) =
        storeWithA.blocks.filter (fun b => decide (b.origin = some [97]))) := by
  have h := receiveBlocks_preserves_other_sources_amended storeWithA [blockOfB] [97]
    (by decide) (by decide) storeWithA.index storeWithA.blocks rfl
    [blockOfB, blockOfA] (by decide) (by decide)
  exact ⟨⟨by decide, by decide, by decide, by decide, by decide⟩, h.1, h.2 (by decide)⟩

/-! ### C1: the store invariant across call sequences -/

/-- A block used to exhibit duplicate ids inside a single call. -/
def dupBlock : Block :=
  { origin := some [97], title := [], imageLink := [], imageWidth := 0,
    imageHeight := 0, link := [], content := [], timeStamp := 0 }

/-- C1 (counterexample): one `ReceiveBlocks` call whose `newBlocks` contains
the same block twice leaves the store holding two blocks with the same id —
the listed sequence keeps both copies, so the claimed invariant fails. -/
theorem receiveBlocks_duplicate_ids_cx :
    (runCalls [[dupBlock, dupBlock]]).isSome = true ∧
    ¬ ((((runCalls [[dupBlock, dupBlock]]).getD emptyBlockStore).blocks.map blockId).Nodup) := by
  constructor
  · rfl
  · decide

/-- The id-disjointness invariant is preserved across one call: the blocks
retained from the store and the incoming blocks have no id in common, given
that ids determine origins over the block universe `U`. -/
theorem runCallsFrom_nodup (U : List Block)
    (hinj : ∀ b ∈ U, ∀ b2 ∈ U, blockId b = blockId b2 → b.origin = b2.origin) :
    ∀ (cs : List (List Block)) (st st2 : BlockStore),
      runCallsFrom st cs = some st2 →
      (∀ b ∈ st.blocks, b ∈ U) → (∀ c ∈ cs, ∀ b ∈ c, b ∈ U) →
      (∀ c ∈ cs, (c.map blockId).Nodup) →
      (st.blocks.map blockId).Nodup →
      (st2.blocks.map blockId).Nodup := by
  intro cs
  induction cs with
  | nil =>
    intro st st2 h hstU hcsU hnd hst
    cases h
    exact hst
  | cons c cs ih =>
    intro st st2 h hstU hcsU hnd hst
    rw [runCallsFrom] at h
    split at h
    · cases h
    next st1 heq =>
      have hblocks := receiveBlocks_blocks st c st1 heq
      have hnonil : ∀ b ∈ st.blocks, ¬ b.origin = none := by
        intro b hb hbn
        have : receiveBlocks st c = none := (receiveBlocks_none_iff st c).mpr ⟨b, hb, hbn⟩
        rw [this] at heq
        cases heq
      refine ih st1 st2 h ?_ (fun c2 hc2 => hcsU c2 (List.mem_cons_of_mem c hc2))
        (fun c2 hc2 => hnd c2 (List.mem_cons_of_mem c hc2)) ?_
      · intro b hb
        rw [hblocks, (sortBlocks_perm _).mem_iff] at hb
        rcases List.mem_append.mp hb with hb2 | hb2
        · exact hstU b (List.mem_of_mem_filter hb2)
        · exact hcsU c (List.mem_cons_self c cs) b hb2
      · rw [hblocks]
        have hperm : ((sortBlocks ((st.blocks.filter
            (fun b => decide (b.origin.getD [] ∉ collectSourceIds c))) ++ c)).map blockId).Perm
            (((st.blocks.filter
              (fun b => decide (b.origin.getD [] ∉ collectSourceIds c))) ++ c).map blockId) :=
          (sortBlocks_perm _).map blockId
        rw [hperm.nodup_iff, List.map_append, List.nodup_append]
        refine ⟨List.Nodup.sublist (List.Sublist.map blockId (List.filter_sublist _)) hst,
          hnd c (List.mem_cons_self c cs), ?_⟩
        intro a ha ha2
        obtain ⟨b, hb, hbid⟩ := List.mem_map.mp ha
        obtain ⟨b2, hb2, hb2id⟩ := List.mem_map.mp ha2
        have hor : b.origin = b2.origin :=
          hinj b (hstU b (List.mem_of_mem_filter hb)) b2
            (hcsU c (List.mem_cons_self c cs) b2 hb2) (by rw [hbid, hb2id])
        have hbkeep := (List.mem_filter.mp hb).2
        rcases hbor : b.origin with _ | s
        · exact hnonil b (List.mem_of_mem_filter hb) hbor
        · have hs2 : b2.origin = some s := by rw [← hor, hbor]
          have hsin : s ∈ collectSourceIds c := List.mem_filterMap.mpr ⟨b2, hb2, hs2⟩
          rw [hbor] at hbkeep
          simp only [Option.getD_some, decide_eq_true_eq] at hbkeep
          exact hbkeep hsin

/-- Every stored block of a source comes from the most recent call that
included that source (or was already stored and its source never appeared). -/
theorem runCallsFrom_provenance :
    ∀ (cs : List (List Block)) (st st2 : BlockStore),
      runCallsFrom st cs = some st2 →
      ∀ b ∈ st2.blocks, ∀ s, b.origin = some s →
        (∃ pre c suf, cs = pre ++ c :: suf ∧ b ∈ c ∧ s ∈ collectSourceIds c ∧
          ∀ c2 ∈ suf, s ∉ collectSourceIds c2) ∨
        (b ∈ st.blocks ∧ ∀ c2 ∈ cs, s ∉ collectSourceIds c2) := by
  intro cs
  induction cs with
  | nil =>
    intro st st2 h b hb s hs
    cases h
    exact Or.inr ⟨hb, by intro c2 hc2; cases hc2⟩
  | cons c cs ih =>
    intro st st2 h b hb s hs
    rw [runCallsFrom] at h
    split at h
    · cases h
    next st1 heq =>
      rcases ih st1 st2 h b hb s hs with ⟨pre, c0, suf, hcs, hrest⟩ | ⟨hb1, hall⟩
      · exact Or.inl ⟨c :: pre, c0, suf, by rw [hcs]; rfl, hrest⟩
      · rw [receiveBlocks_blocks st c st1 heq, (sortBlocks_perm _).mem_iff] at hb1
        rcases List.mem_append.mp hb1 with hb2 | hb2
        · have hkeep := (List.mem_filter.mp hb2).2
          rw [hs] at hkeep
          simp only [Option.getD_some, decide_eq_true_eq] at hkeep
          refine Or.inr ⟨List.mem_of_mem_filter hb2, ?_⟩
          intro c2 hc2
          rcases List.mem_cons.mp hc2 with rfl | hc3
          · exact hkeep
          · exact hall c2 hc3
        · exact Or.inl ⟨[], c, cs, rfl, hb2,
            List.mem_filterMap.mpr ⟨b, hb2, hs⟩, hall⟩

/-- C1 (amended): starting from the empty store, provided each call's
`newBlocks` carries pairwise distinct ids and equal ids imply equal origins
across all blocks of the sequence (no SHA-1 collision across sources), after
every call the store holds no two blocks with the same id, and every stored
block of a source came from the most recent call that included a block of
that source. -/
theorem receiveBlocks_store_invariant_amended (calls : List (List Block)) (st : BlockStore)
    (hrun : runCalls calls = some st)
    (hnodup : ∀ c ∈ calls, (c.map blockId).Nodup)
    (hinj : ∀ b ∈ allCallBlocks calls, ∀ b2 ∈ allCallBlocks calls,
      blockId b = blockId b2 → b.origin = b2.origin) :
    (st.blocks.map blockId).Nodup ∧
    ∀ b ∈ st.blocks, ∀ s, b.origin = some s →
      ∃ pre c suf, calls = pre ++ c :: suf ∧ b ∈ c ∧ s ∈ collectSourceIds c ∧
        ∀ c2 ∈ suf, s ∉ collectSourceIds c2 := by
  constructor
  · exact runCallsFrom_nodup (allCallBlocks calls) hinj calls emptyBlockStore st hrun
      (by intro b hb; cases hb)
      (fun c hc b hb => List.mem_flatten.mpr ⟨c, hc, hb⟩)
      hnodup (by simp [emptyBlockStore])
  · intro b hb s hs
    rcases runCallsFrom_provenance calls emptyBlockStore st hrun b hb s hs with h | ⟨hb2, _⟩
    · exact h
    · cases hb2

/-- Witness for the amended C1, on the single call `[[blockOfA]]`. -/
theorem receiveBlocks_store_invariant_amended_witness :
    ((((runCalls [[blockOfA]]).getD emptyBlockStore).blocks.map blockId).Nodup) ∧
    (∀ b ∈ ((runCalls [[blockOfA]]).getD emptyBlockStore).blocks, ∀ s, b.origin = some s →
      ∃ pre c suf, ([[blockOfA]] : List (List Block)) = pre ++ c :: suf ∧ b ∈ c ∧
        s ∈ collectSourceIds c ∧ ∀ c2 ∈ suf, s ∉ collectSourceIds c2) :=
  receiveBlocks_store_invariant_amended [[blockOfA]]
    ((runCalls [[blockOfA]]).getD emptyBlockStore) rfl (by decide) (by decide)

/-! ### C4: the derived block id -/

/-- `beBytes` always renders exactly `k` bytes. -/
theorem beBytes_length : ∀ (k n : Nat), (beBytes k n).length = k := by
  intro k
  induction k with
  | zero => intro n; rfl
  | succ k ih => intro n; simp [beBytes, ih]

/-- Every byte rendered by `beBytes` is below 256. -/
theorem beBytes_lt : ∀ (k n : Nat), ∀ x ∈ beBytes k n, x < 256 := by
  intro k
  induction k with
  | zero => intro n x hx; cases hx
  | succ k ih =>
    intro n x hx
    rcases List.mem_cons.mp hx with rfl | hx2
    · exact Nat.mod_lt _ (by omega)
    · exact ih n x hx2

/-- A SHA-1 digest is 20 bytes long, whatever the message. -/
theorem sha1_length (m : GoStr) : (sha1 m).length = 20 := by
  simp [sha1, beBytes_length]

/-- Every byte of a SHA-1 digest is below 256. -/
theorem sha1_lt (m : GoStr) : ∀ x ∈ sha1 m, x < 256 := by
  intro x hx
  simp only [sha1, List.mem_append] at hx
  rcases hx with ((((h | h) | h) | h) | h) <;> exact beBytes_lt _ _ x h

/-- The base64 alphabet has 64 entries. -/
theorem b64Alphabet_length : b64Alphabet.length = 64 := by decide

/-- Every output of the alphabet lookup is an alphabet byte. -/
theorem b64Char_mem (v : Nat) : b64Char v ∈ b64Alphabet := by
  have h : v % 64 < b64Alphabet.length := by
    rw [b64Alphabet_length]
    exact Nat.mod_lt _ (by omega)
  rw [b64Char, List.getD_eq_getElem?_getD, List.getElem?_eq_getElem h, Option.getD_some]
  exact List.getElem_mem h

/-- No alphabet byte is the padding byte `=`. -/
theorem b64Alphabet_ne_61 : ∀ x ∈ b64Alphabet, ¬ x = 61 := by decide

/-- Every alphabet byte is below 256. -/
theorem b64Alphabet_lt : ∀ x ∈ b64Alphabet, x < 256 := by decide

/-- Shape of the base64 encoding of a byte string whose length is 2 mod 3:
alphabet bytes followed by a single `=` pad. -/
theorem b64Encode_mod2_spec : ∀ l : GoStr, l.length % 3 = 2 →
    ∃ cs, b64Encode l = cs ++ [61] ∧ cs.length = l.length / 3 * 4 + 3 ∧
      ∀ x ∈ cs, x ∈ b64Alphabet
  | b0 :: b1 :: b2 :: rest => by
    intro h
    obtain ⟨cs, hcs, hlen, hmem⟩ := b64Encode_mod2_spec rest (by
      simp only [List.length_cons] at h
      omega)
    refine ⟨b64Char (b0 / 4) :: b64Char (b0 % 4 * 16 + b1 / 16) ::
      b64Char (b1 % 16 * 4 + b2 / 64) :: b64Char (b2 % 64) :: cs, ?_, ?_, ?_⟩
    · rw [b64Encode, hcs]
      rfl
    · simp only [List.length_cons, hlen]
      omega
    · intro x hx
      rcases List.mem_cons.mp hx with rfl | hx
      · exact b64Char_mem _
      rcases List.mem_cons.mp hx with rfl | hx
      · exact b64Char_mem _
      rcases List.mem_cons.mp hx with rfl | hx
      · exact b64Char_mem _
      rcases List.mem_cons.mp hx with rfl | hx
      · exact b64Char_mem _
      exact hmem x hx
  | [b0, b1] => by
    intro _
    refine ⟨[b64Char (b0 / 4), b64Char (b0 % 4 * 16 + b1 / 16), b64Char (b1 % 16 * 4)],
      rfl, by simp, ?_⟩
    intro x hx
    rcases List.mem_cons.mp hx with rfl | hx
    · exact b64Char_mem _
    rcases List.mem_cons.mp hx with rfl | hx
    · exact b64Char_mem _
    rcases List.mem_cons.mp hx with rfl | hx
    · exact b64Char_mem _
    cases hx
  | [b0] => by intro h; simp at h
  | [] => by intro h; simp at h

/-- `strIndex` finds the single trailing byte when it occurs nowhere else. -/
theorem strIndex_append_last (x : Nat) :
    ∀ cs : GoStr, (∀ c ∈ cs, ¬ c = x) → strIndex x (cs ++ [x]) = some cs.length := by
  intro cs
  induction cs with
  | nil => intro _; simp [strIndex]
  | cons c rest ih =>
    intro h
    rw [List.cons_append, strIndex,
      if_neg (h c (List.mem_cons_self c rest)), ih (fun c2 hc2 => h c2 (List.mem_cons_of_mem c hc2))]
    rfl

/-- `IdEncode` of any 20-byte digest is 27 bytes of base64 alphabet. -/
theorem idEncode_digest_spec (l : GoStr) (h20 : l.length = 20) :
    (idEncode l).length = 27 ∧ ∀ x ∈ idEncode l, x < 256 := by
  obtain ⟨cs, hcs, hlen, hmem⟩ := b64Encode_mod2_spec l (by omega)
  have hlen27 : cs.length = 27 := by omega
  have hidx : strIndex 61 (b64Encode l) = some 27 := by
    rw [hcs, strIndex_append_last 61 cs (fun c hc => b64Alphabet_ne_61 c (hmem c hc)), hlen27]
  have henc : idEncode l = cs := by
    unfold idEncode
    rw [hidx]
    simp only []
    rw [hcs, ← hlen27, List.take_left]
  rw [henc, hlen27]
  exact ⟨rfl, fun x hx => b64Alphabet_lt x (hmem x hx)⟩

/-- `Block.Id()` factors through the SHA-1 of the joined hash input. -/
theorem blockId_eq_hash (b : Block) : blockId b = idEncode (sha1 (blockHashInput b)) := rfl

/-- Every derived block id is 27 bytes long, each byte below 256. -/
theorem blockId_spec (b : Block) : (blockId b).length = 27 ∧ ∀ x ∈ blockId b, x < 256 := by
  rw [blockId_eq_hash]
  exact idEncode_digest_spec _ (sha1_length _)

/-- A block that differs from its peers only in the title length. -/
def titleBlock (n : Nat) : Block :=
  { origin := none, title := List.replicate n 97, imageLink := [], imageWidth := 0,
    imageHeight := 0, link := [], content := [], timeStamp := 0 }

/-- C4 (counterexample): it is not true that every change of exactly one of
the four id-determining fields changes the derived id.  The id is a fixed
27-byte string over a finite alphabet while titles are unbounded, so by
pigeonhole two blocks that differ only in the title share an id. -/
theorem blockId_one_field_change_cx :
    ¬ (∀ b1 b2 : Block, diffExactlyOneIdField b1 b2 → ¬ blockId b1 = blockId b2) := by
  intro H
  have hinj : ∀ n m : Nat, blockId (titleBlock n) = blockId (titleBlock m) → n = m := by
    intro n m heq
    by_contra hne
    have hdiff : diffExactlyOneIdField (titleBlock n) (titleBlock m) := by
      refine Or.inr (Or.inl ⟨rfl, ?_, rfl, rfl⟩)
      intro ht
      apply hne
      have hlen := congrArg List.length ht
      simpa [titleBlock] using hlen
    exact H _ _ hdiff heq
  have hg : ∀ (n : Nat) (i : Fin 27), (blockId (titleBlock n)).getD i.val 0 < 256 := by
    intro n i
    have hi : i.val < (blockId (titleBlock n)).length := by
      rw [(blockId_spec (titleBlock n)).1]
      exact i.isLt
    rw [List.getD_eq_getElem?_getD, List.getElem?_eq_getElem hi, Option.getD_some]
    exact (blockId_spec (titleBlock n)).2 _ (List.getElem_mem hi)
  obtain ⟨n, m, hnm, hgeq⟩ := Finite.exists_ne_map_eq_of_infinite
    (fun n : Nat => fun i : Fin 27 => (⟨(blockId (titleBlock n)).getD i.val 0, hg n i⟩ : Fin 256))
  apply hnm
  apply hinj
  apply List.ext_getElem
  · rw [(blockId_spec _).1, (blockId_spec _).1]
  · intro i h1 h2
    have h27 : i < 27 := by rw [(blockId_spec (titleBlock n)).1] at h1; exact h1
    have hfun := congrFun hgeq ⟨i, h27⟩
    have hval := congrArg Fin.val hfun
    simp only [] at hval
    rw [List.getD_eq_getElem?_getD, List.getElem?_eq_getElem h1, Option.getD_some,
      List.getD_eq_getElem?_getD, List.getElem?_eq_getElem h2, Option.getD_some] at hval
    exact hval

/-- The hash input of a block, written out. -/
theorem blockHashInput_shape (b : Block) :
    blockHashInput b = originId b ++ 124 :: (b.title ++ 124 :: (b.link ++ 124 :: b.content)) :=
  rfl

/-- C4 (amended): blocks agreeing on source id, title, link and content have
equal derived ids; and blocks differing in exactly one of those four fields
feed distinct byte strings to SHA-1, so their ids can differ only through a
SHA-1 (or padding-truncation) collision. -/
theorem blockId_field_determinism_amended (b1 b2 : Block) :
    (originId b1 = originId b2 → b1.title = b2.title → b1.link = b2.link →
      b1.content = b2.content → blockId b1 = blockId b2) ∧
    (diffExactlyOneIdField b1 b2 → ¬ blockHashInput b1 = blockHashInput b2) := by
  constructor
  · intro h1 h2 h3 h4
    unfold blockId idEncodeStrings
    rw [h1, h2, h3, h4]
  · intro hd heq
    rw [blockHashInput_shape, blockHashInput_shape] at heq
    rcases hd with ⟨hno, ht, hl, hc⟩ | ⟨ho, hnt, hl, hc⟩ | ⟨ho, ht, hnl, hc⟩ | ⟨ho, ht, hl, hnc⟩
    · rw [ht, hl, hc] at heq
      exact hno (List.append_cancel_right heq)
    · rw [ho, hl, hc] at heq
      have h2 := List.append_cancel_left heq
      injection h2 with _ h3
      exact hnt (List.append_cancel_right h3)
    · rw [ho, ht, hc] at heq
      have h2 := List.append_cancel_left heq
      injection h2 with _ h3
      have h4 := List.append_cancel_left h3
      injection h4 with _ h5
      exact hnl (List.append_cancel_right h5)
    · rw [ho, ht, hl] at heq
      have h2 := List.append_cancel_left heq
      injection h2 with _ h3
      have h4 := List.append_cancel_left h3
      injection h4 with _ h5
      have h6 := List.append_cancel_left h5
      injection h6 with _ h7
      exact hnc h7

/-- Witness for the amended C4: equal fields give the equal id, and blocks
differing exactly in the title have distinct SHA-1 inputs. -/
theorem blockId_field_determinism_amended_witness :
    (blockId (titleBlock 0) = blockId (titleBlock 0)) ∧
    diffExactlyOneIdField (titleBlock 1) (titleBlock 2) ∧
    ¬ blockHashInput (titleBlock 1) = blockHashInput (titleBlock 2) :=
  ⟨(blockId_field_determinism_amended (titleBlock 0) (titleBlock 0)).1 rfl rfl rfl rfl,
   by decide,
   (blockId_field_determinism_amended (titleBlock 1) (titleBlock 2)).2 (by decide)⟩

/-! ### Fidelity checks of the embedded library functions -/

/-- The embedded SHA-1 meets the standard test vectors. -/
theorem sha1_test_vectors :
    sha1 [] = [218, 57, 163, 238, 94, 107, 75, 13, 50, 85, 191, 239,
      149, 96, 24, 144, 175, 216, 7, 9] ∧
    sha1 (strBytes "abc") = [169, 153, 62, 54, 71, 6, 129, 106, 186, 62,
      37, 113, 120, 80, 194, 108, 156, 208, 216, 157] := by
  constructor
  · decide
  · decide

/-- The embedded CRC-32 meets the standard IEEE test vector. -/
theorem crc32_test_vector : crc32 (strBytes "123456789") = 3421780262 := by decide

/-- The embedded `path.Clean` agrees with Go on representative paths. -/
theorem pathClean_examples :
    pathClean [] = strBytes "." ∧
    pathClean (strBytes "a/b/../c") = strBytes "a/c" ∧
    pathClean (strBytes "a//b/./c") = strBytes "a/b/c" ∧
    pathClean (strBytes "/../a") = strBytes "/a" ∧
    pathClean (strBytes "../../x") = strBytes "../../x" ∧
    pathClean (strBytes "a/..") = strBytes "." ∧
    pathClean (strBytes "a/b/c/../../d") = strBytes "a/d" ∧
    goPathJoin (strBytes "home") (strBytes "x/y") = strBytes "home/x/y" := by
  refine ⟨?_, ?_, ?_, ?_, ?_, ?_, ?_, ?_⟩ <;> decide

/-- A fresh cache's counter satisfies the reachable-counter bound assumed by
the rotation theorem, and `ForgetSome` preserves it. -/
theorem forgetCounter_invariant (d : List GoStr) (p : Int) (hp : 0 < p) (hp100 : p ≤ 100)
    (c : FCache) (h0 : 0 ≤ c.forgetCounter)
    (hm : c.forgetCounter < forgetModValue c.forgetPercent) :
    (0 ≤ (newForgettingCache d p).forgetCounter ∧
      (newForgettingCache d p).forgetCounter <
        forgetModValue (newForgettingCache d p).forgetPercent) ∧
    (0 ≤ (forgetSome c).forgetCounter ∧
      (forgetSome c).forgetCounter < forgetModValue (forgetSome c).forgetPercent) := by
  constructor
  · refine ⟨le_refl 0, ?_⟩
    show (0 : Int) < forgetModValue p
    unfold forgetModValue
    rw [if_pos ⟨hp, hp100⟩]
    have h1 : (1 : Int) ≤ 100 / p := by
      apply Int.le_ediv_iff_mul_le hp |>.mpr
      omega
    omega
  · have hpc : forgetModValue (forgetSome c).forgetPercent =
        forgetModValue c.forgetPercent := rfl
    have hcnt : (forgetSome c).forgetCounter =
        if c.forgetCounter + 1 = forgetModValue c.forgetPercent then 0
        else c.forgetCounter + 1 := rfl
    rw [hpc, hcnt]
    split
    · omega
    · omega

end Honeybee

